import Mathlib

/-!
# SimpleVector

A shallow embedding of `simple_vector.h`: a growable array built on a
raw-storage owner (`ArrayPtr`), with a logical size and a capacity.

* A storage block is a `List T` whose length is the number of slots.
* `size_t` values are natural numbers.  A block of `capacity_` slots exists in
  memory, so `capacity_` is far below `2^63` and `capacity_ * 2` never wraps.
* An iterator is the offset of the pointer from `begin()` of the block it
  points into.
* A failed `assert` is the result `none`.
* `Type()` is `default` of an `Inhabited` element type; moving an element is
  copying it, so the `const Type&` and `Type&&` overloads coincide.
* A `const Type&` argument that a method reads after it has written to its own
  block is a `ConstRef`: it may refer to a slot of that block, and is read at
  the point where the source reads it.
* An access outside a block is undefined in C++; here such a read gives
  `default` and such a write leaves the block as it is.  On a vector that
  satisfies `SimpleVector.WF` and within the asserted preconditions no method
  makes such an access.
* A thrown exception leaves the object alive, so a method that throws returns
  its outcome together with the state after the call.
* `operator=` compares addresses, so the two assignment operators act on a
  memory that maps addresses to objects.

`stack_vector.h` is embedded the same way: `std::array<T, N>` is a `List T` of
`N` slots.
-/

/-- The standard exceptions the two headers throw. -/
inductive StdExcept where
  | out_of_range
  | invalid_argument
  | overflow_error
  | underflow_error
deriving DecidableEq, Repr

/-- The class `ReserveProxyObj`. -/
structure ReserveProxyObj where
  capacity_to_reserve_ : Nat
deriving DecidableEq, Repr

/-- Method `ReserveProxyObj::Get`. -/
def ReserveProxyObj.Get (r : ReserveProxyObj) : Nat :=
  r.capacity_to_reserve_

/-- The free function `Reserve(size_t capacity_to_reserve)`. -/
def Reserve (capacity_to_reserve : Nat) : ReserveProxyObj :=
  { capacity_to_reserve_ := capacity_to_reserve }

namespace SimpleVec

variable {T : Type}

/-! ## Storage blocks and the standard algorithms the header calls -/

/-- Modelled from the spec: `ArrayPtr<Type>(n)` of the absent `array_ptr.h`, the
raw-storage owner, which "owns a contiguous block of exactly N
default-constructed slots". -/
def ArrayPtr [Inhabited T] (n : Nat) : List T :=
  List.replicate n default

/-- The loop of `std::copy` / `std::move` from one block into another one: `n`
iterations of `*d_first++ = *first++`. -/
def copyLoop [Inhabited T] : Nat → List T → Nat → List T → Nat → List T
  | 0, _, _, dst, _ => dst
  | n + 1, src, first, dst, d =>
      copyLoop n src (first + 1) (dst.set d (src.getD first default)) (d + 1)

/-- Calls `std::copy(first, last, d_first)` and `std::move(first, last, d_first)`
with the source range in block `src` and the destination in block `dst`. -/
def stdCopy [Inhabited T] (src : List T) (first last : Nat) (dst : List T) (d : Nat) :
    List T :=
  copyLoop (last - first) src first dst d

/-- The loop of `std::move(first, last, d_first)` when source and destination
lie in the same block: `n` iterations of `*d_first++ = std::move(*first++)`. -/
def moveWithinLoop [Inhabited T] : Nat → List T → Nat → Nat → List T
  | 0, a, _, _ => a
  | n + 1, a, first, d =>
      moveWithinLoop n (a.set d (a.getD first default)) (first + 1) (d + 1)

/-- Call `std::move(first, last, d_first)` inside one block. -/
def stdMoveWithin [Inhabited T] (a : List T) (first last d : Nat) : List T :=
  moveWithinLoop (last - first) a first d

/-- The loop of `std::copy_backward(first, last, d_last)` inside one block: `n`
iterations of `*(--d_last) = *(--last)`. -/
def copyBackwardLoop [Inhabited T] : Nat → List T → Nat → Nat → List T
  | 0, a, _, _ => a
  | n + 1, a, last, dlast =>
      copyBackwardLoop n (a.set (dlast - 1) (a.getD (last - 1) default)) (last - 1) (dlast - 1)

/-- Call `std::copy_backward(first, last, d_last)` inside one block. -/
def stdCopyBackward [Inhabited T] (a : List T) (first last dlast : Nat) : List T :=
  copyBackwardLoop (last - first) a last dlast

/-- The loop of `std::fill(first, last, value)`: `n` iterations of
`*first++ = value`. -/
def fillLoop : Nat → List T → Nat → T → List T
  | 0, a, _, _ => a
  | n + 1, a, first, x => fillLoop n (a.set first x) (first + 1) x

/-- Call `std::fill(first, last, value)`. -/
def stdFill (a : List T) (first last : Nat) (x : T) : List T :=
  fillLoop (last - first) a first x

/-- Call `std::generate(first, last, [] { return Type(); })`. -/
def stdGenerate [Inhabited T] (a : List T) (first last : Nat) : List T :=
  fillLoop (last - first) a first default

/-- A `const Type&` argument of a method of a vector: a reference to an object
outside the vector's block, given by the value it holds, or a reference to
slot `k` of the vector's own block (as in `v.Insert(v.begin(), v[2])`). -/
inductive ConstRef (T : Type) where
  | outside (x : T)
  | slot (k : Nat)
deriving DecidableEq, Repr

/-- The value a reference holds while the vector's block is `items`. -/
def ConstRef.read [Inhabited T] (value : ConstRef T) (items : List T) : T :=
  match value with
  | ConstRef.outside x => x
  | ConstRef.slot k => items.getD k default

/-- The loop of `std::lexicographical_compare` over two ranges, with the
element type's `operator<` as `less`: the first position where one element is
less than the other decides, and a range that ends first is the smaller. -/
def lexicographical_compare (less : T → T → Bool) : List T → List T → Bool
  | [], [] => false
  | [], _ :: _ => true
  | _ :: _, [] => false
  | a :: as, b :: bs =>
      if less a b then true
      else if less b a then false
      else lexicographical_compare less as bs

/-- The element type's `operator<` is a strict total order: irreflexive,
transitive, and any two distinct values are ordered one way or the other. -/
def StrictTotal (less : T → T → Bool) : Prop :=
  (∀ a, less a a = false) ∧
  (∀ a b c, less a b = true → less b c = true → less a c = true) ∧
  (∀ a b, less a b = false → less b a = false → a = b)

end SimpleVec

/-- The class `SimpleVector<Type>`: its three data members. -/
structure SimpleVector (T : Type) where
  /-- The block owned by `ArrayPtr<Type> items_`. -/
  items_ : List T
  size_ : Nat
  capacity_ : Nat
deriving DecidableEq, Repr

namespace SimpleVector

open SimpleVec

variable {T : Type}

/-- Constructor `SimpleVector() noexcept = default`. -/
def empty : SimpleVector T :=
  { items_ := [], size_ := 0, capacity_ := 0 }

/-- Constructor `explicit SimpleVector(size_t size)`. -/
def sized [Inhabited T] (size : Nat) : SimpleVector T :=
  { items_ := stdGenerate (ArrayPtr size) 0 size, size_ := size, capacity_ := size }

/-- Constructor `SimpleVector(std::initializer_list<Type> init)`. -/
def ofInit [Inhabited T] (init : List T) : SimpleVector T :=
  { items_ := stdCopy init 0 init.length (ArrayPtr init.length) 0,
    size_ := init.length, capacity_ := init.length }

/-- Method `GetSize`. -/
def GetSize (v : SimpleVector T) : Nat := v.size_

/-- Method `GetCapacity`. -/
def GetCapacity (v : SimpleVector T) : Nat := v.capacity_

/-- Method `IsEmpty`. -/
def IsEmpty (v : SimpleVector T) : Bool := v.size_ == 0

/-- The logical elements: the range from `begin()` to `end()`. -/
def toList (v : SimpleVector T) : List T := v.items_.take v.size_

/-- Representation invariant: the block has `capacity_` slots and the logical
size does not exceed it. -/
def WF (v : SimpleVector T) : Prop :=
  v.items_.length = v.capacity_ ∧ v.size_ ≤ v.capacity_

instance (v : SimpleVector T) : Decidable v.WF :=
  inferInstanceAs (Decidable (v.items_.length = v.capacity_ ∧ v.size_ ≤ v.capacity_))

/-- Method `Reserve`. -/
def Reserve [Inhabited T] (v : SimpleVector T) (new_capacity : Nat) : SimpleVector T :=
  if new_capacity > v.capacity_ then
    let new_vector : SimpleVector T := sized new_capacity
    let moved := stdCopy v.items_ 0 v.size_ new_vector.items_ 0
    { items_ := moved, size_ := v.size_, capacity_ := new_capacity }
  else v

/-- Method `Resize`. -/
def Resize [Inhabited T] (v : SimpleVector T) (new_size : Nat) : SimpleVector T :=
  if new_size ≤ v.size_ then
    { v with size_ := new_size }
  else if new_size ≤ v.capacity_ then
    { v with items_ := stdGenerate v.items_ v.size_ new_size, size_ := new_size }
  else
    let r := v.Reserve new_size
    { r with items_ := stdGenerate r.items_ r.size_ new_size, size_ := new_size }

/-- Method `PushBack(const Type&)`.  In each branch `item` is read before any
slot it can refer to is written (with capacity 0 there is no slot to refer to),
so the argument is the value the reference holds at the call. -/
def PushBack [Inhabited T] (v : SimpleVector T) (item : T) : SimpleVector T :=
  if v.IsEmpty then
    let r := if v.capacity_ = 0 then v.Reserve 10 else v
    { r with items_ := r.items_.set 0 item, size_ := r.size_ + 1 }
  else if v.size_ < v.capacity_ then
    { v with items_ := v.items_.set v.size_ item, size_ := v.size_ + 1 }
  else
    let new_vector : List T := ArrayPtr (v.capacity_ * 2)
    let new_vector := stdCopy v.items_ 0 v.size_ new_vector 0
    let new_vector := new_vector.set v.size_ item
    { items_ := new_vector, size_ := v.size_ + 1, capacity_ := v.capacity_ * 2 }

/-- Method `Insert(ConstIterator, const Type&)`; `pos` is the offset of the
iterator from `begin()`, and the result carries the returned iterator as an
offset into the resulting block.  `value` is a reference and is read where the
source reads it: by `PushBack` at the call, in the shift branch after
`std::copy_backward` has moved the elements of this block, and in the
reallocate branch from the old block, which is still untouched. -/
def Insert [Inhabited T] (v : SimpleVector T) (pos : Nat) (value : ConstRef T) :
    Option (SimpleVector T × Nat) :=
  if ¬ pos ≤ v.size_ then none
  else if pos = v.size_ then
    let r := v.PushBack (value.read v.items_)
    some (r, r.size_ - 1)
  else if v.size_ < v.capacity_ then
    let items := stdCopyBackward v.items_ pos v.size_ (v.size_ + 1)
    let items := items.set pos (value.read items)
    some ({ v with items_ := items, size_ := v.size_ + 1 }, pos)
  else
    let swap_ptr : SimpleVector T := sized (2 * v.capacity_)
    let items := stdCopy v.items_ 0 pos swap_ptr.items_ 0
    let items := stdCopy v.items_ pos v.size_ items (pos - 0 + 1)
    let return_it := pos - 0
    let items := items.set return_it (value.read v.items_)
    some ({ items_ := items, size_ := v.size_ + 1, capacity_ := 2 * v.capacity_ }, return_it)

/-- Method `PopBack`. -/
def PopBack (v : SimpleVector T) : Option (SimpleVector T) :=
  if v.IsEmpty then none else some { v with size_ := v.size_ - 1 }

/-- Method `Erase`; the result carries the returned iterator as an offset. -/
def Erase [Inhabited T] (v : SimpleVector T) (pos : Nat) : Option (SimpleVector T × Nat) :=
  if v.IsEmpty then none
  else if ¬ pos < v.size_ then none
  else
    let items := stdMoveWithin v.items_ (pos + 1) v.size_ pos
    some ({ v with items_ := items, size_ := v.size_ - 1 }, pos)

/-- Method `Clear`. -/
def Clear (v : SimpleVector T) : SimpleVector T :=
  { v with size_ := 0 }

/-! ### Names for intermediate values of the methods above -/

/-- The block of `Insert`'s shift branch after `std::copy_backward` and before
the write through `pos`. -/
def shiftedBlock [Inhabited T] (v : SimpleVector T) (pos : Nat) : List T :=
  stdCopyBackward v.items_ pos v.size_ (v.size_ + 1)

/-- The block `Insert` leaves behind when it shifts in place: `value` is read
from the block as it is after the shift. -/
def insertShifted [Inhabited T] (v : SimpleVector T) (pos : Nat) (value : ConstRef T) :
    List T :=
  (shiftedBlock v pos).set pos (value.read (shiftedBlock v pos))

/-- The new block of `Insert`'s reallocate branch after the two `std::copy`
calls and before the write through `return_it`. -/
def reallocBlock [Inhabited T] (v : SimpleVector T) (pos : Nat) : List T :=
  stdCopy v.items_ pos v.size_
    (stdCopy v.items_ 0 pos (sized (2 * v.capacity_) : SimpleVector T).items_ 0) (pos + 1)

/-- The block `Insert` leaves behind when it reallocates: `value` is read from
the old block. -/
def insertRealloc [Inhabited T] (v : SimpleVector T) (pos : Nat) (value : ConstRef T) :
    List T :=
  (reallocBlock v pos).set pos (value.read v.items_)

/-- The block `Erase` leaves behind. -/
def eraseShifted [Inhabited T] (v : SimpleVector T) (pos : Nat) : List T :=
  stdMoveWithin v.items_ (pos + 1) v.size_ pos

/-- The capacity is `10 * 2^k` for the least `k` whose `10 * 2^k` holds the
current size. -/
def DoublingFrom10 (v : SimpleVector T) : Prop :=
  v.WF ∧ 1 ≤ v.size_ ∧
    ∃ k, v.capacity_ = 10 * 2 ^ k ∧ ∀ j, v.size_ ≤ 10 * 2 ^ j → k ≤ j

/-- A finite sequence of `PushBack` calls, one per value, in order. -/
def pushAll [Inhabited T] (v : SimpleVector T) (xs : List T) : SimpleVector T :=
  xs.foldl PushBack v

/-! ### Remaining constructors, element access, `swap` and assignment -/

/-- Constructor `SimpleVector(size_t size, const Type& value)`. -/
def sizedValue [Inhabited T] (size : Nat) (value : T) : SimpleVector T :=
  { items_ := stdFill (ArrayPtr size) 0 size value, size_ := size, capacity_ := size }

/-- Constructor `SimpleVector(ReserveProxyObj)`; `size_` keeps its default
member initialiser 0. -/
def ofReserve [Inhabited T] (reserve_proxy_obj : ReserveProxyObj) : SimpleVector T :=
  { items_ := ArrayPtr reserve_proxy_obj.Get, size_ := 0,
    capacity_ := reserve_proxy_obj.Get }

/-- Method `operator[]`. -/
def opIndex [Inhabited T] (v : SimpleVector T) (index : Nat) : Option T :=
  if ¬ index < v.size_ then none
  else some (v.items_.getD index default)

/-- Method `At`: the outcome of the call and the vector after it. -/
def At [Inhabited T] (v : SimpleVector T) (index : Nat) :
    Except StdExcept T × SimpleVector T :=
  if index ≥ v.size_ then (Except.error StdExcept.out_of_range, v)
  else (Except.ok (v.items_.getD index default), v)

/-- Method `swap(SimpleVector& other)` on two objects: the receiver and `other`
after the call.  `ArrayPtr::swap` exchanges the two owned blocks. -/
def swap (self other : SimpleVector T) : SimpleVector T × SimpleVector T :=
  let self1 := { self with items_ := other.items_ }
  let other1 := { other with items_ := self.items_ }
  let self2 := { self1 with size_ := other1.size_ }
  let other2 := { other1 with size_ := self1.size_ }
  let self3 := { self2 with capacity_ := other2.capacity_ }
  let other3 := { other2 with capacity_ := self2.capacity_ }
  (self3, other3)

/-- Constructor `SimpleVector(const SimpleVector& other)`: the new object and
`other` after the call.  The object under construction starts from its default
member initialisers, which is what the `assert` looks at. -/
def copyConstruct [Inhabited T] (other : SimpleVector T) :
    Option (SimpleVector T × SimpleVector T) :=
  let self : SimpleVector T := empty
  if ¬ (self.size_ = 0 ∧ self.items_.isEmpty = true) then none
  else
    let tmp_array : List T := ArrayPtr other.capacity_
    let tmp_array := stdCopy other.items_ 0 other.size_ tmp_array 0
    let self := { self with items_ := tmp_array }
    let self := { self with size_ := other.GetSize }
    let self := { self with capacity_ := other.GetCapacity }
    some (self, other)

/-- Constructor `SimpleVector(SimpleVector&& other)`: the new object and `other`
after the call. -/
def moveConstruct (other : SimpleVector T) : SimpleVector T × SimpleVector T :=
  swap empty other

/-- Method `operator=(const SimpleVector& rhs)`, for the receiver at address
`self` and the right-hand side at address `rhs` of the memory `mem`: the memory
after the call.  The temporary `tmp` dies at the end of the call. -/
def copyAssign [Inhabited T] (mem : Nat → SimpleVector T) (self rhs : Nat) :
    Option (Nat → SimpleVector T) :=
  if self = rhs then some mem
  else
    match copyConstruct (mem rhs) with
    | none => none
    | some tmp_rhs =>
      let swapped := swap (mem self) tmp_rhs.1
      some (fun a => if a = self then swapped.1 else if a = rhs then tmp_rhs.2 else mem a)

/-- Method `operator=(SimpleVector&& rhs)`, for the receiver at address `self`
and the right-hand side at address `rhs` of the memory `mem`: the memory after
the call.  The temporary `tmp` dies at the end of the call. -/
def moveAssign (mem : Nat → SimpleVector T) (self rhs : Nat) : Nat → SimpleVector T :=
  if self = rhs then mem
  else
    let tmp_rhs := moveConstruct (mem rhs)
    let swapped := swap (mem self) tmp_rhs.1
    fun a => if a = self then swapped.1 else if a = rhs then tmp_rhs.2 else mem a

/-! ### Comparison operators, over the element type's `operator<` -/

/-- The `operator<` on vectors. -/
def opLt (less : T → T → Bool) (lhs rhs : SimpleVector T) : Bool :=
  lexicographical_compare less lhs.toList rhs.toList

/-- The `operator>` on vectors. -/
def opGt (less : T → T → Bool) (lhs rhs : SimpleVector T) : Bool :=
  opLt less rhs lhs

/-- The `operator<=` on vectors. -/
def opLe (less : T → T → Bool) (lhs rhs : SimpleVector T) : Bool :=
  !(opGt less lhs rhs)

/-- The `operator>=` on vectors. -/
def opGe (less : T → T → Bool) (lhs rhs : SimpleVector T) : Bool :=
  !(opLt less lhs rhs)

/-- The `operator==` on vectors. -/
def opEq (less : T → T → Bool) (lhs rhs : SimpleVector T) : Bool :=
  (opGe less lhs rhs) && (opLe less lhs rhs)

/-- The `operator!=` on vectors. -/
def opNe (less : T → T → Bool) (lhs rhs : SimpleVector T) : Bool :=
  !(opEq less lhs rhs)

end SimpleVector

/-- The class `StackVector<T, N>`: its three data members. -/
structure StackVector (T : Type) (N : Nat) where
  /-- The `std::array<T, N> vector_`. -/
  vector_ : List T
  size_ : Nat
  capacity_ : Nat
deriving DecidableEq, Repr

namespace StackVector

variable {T : Type} {N : Nat}

/-- Constructor `explicit StackVector(size_t a_size = 0)`. -/
def construct [Inhabited T] (a_size : Nat) : Except StdExcept (StackVector T N) :=
  if a_size > N then Except.error StdExcept.invalid_argument
  else Except.ok { vector_ := List.replicate N default, size_ := a_size, capacity_ := N }

/-- Representation invariant: `N` slots, `capacity_` is `N`, and the logical
size does not exceed it. -/
def WF (s : StackVector T N) : Prop :=
  s.vector_.length = N ∧ s.capacity_ = N ∧ s.size_ ≤ N

instance (s : StackVector T N) : Decidable s.WF :=
  inferInstanceAs (Decidable (s.vector_.length = N ∧ s.capacity_ = N ∧ s.size_ ≤ N))

/-- Method `operator[]`, which is `vector_.at(index)`: the outcome of the call
and the object after it. -/
def opIndex [Inhabited T] (s : StackVector T N) (index : Nat) :
    Except StdExcept T × StackVector T N :=
  if index ≥ N then (Except.error StdExcept.out_of_range, s)
  else (Except.ok (s.vector_.getD index default), s)

/-- Method `Size`. -/
def Size (s : StackVector T N) : Nat := s.size_

/-- Method `Capacity`. -/
def Capacity (s : StackVector T N) : Nat := s.capacity_

/-- Method `PushBack`: the outcome of the call and the object after it. -/
def PushBack (s : StackVector T N) (value : T) : Except StdExcept Unit × StackVector T N :=
  if s.size_ = s.capacity_ then (Except.error StdExcept.overflow_error, s)
  else (Except.ok (), { s with vector_ := s.vector_.set s.size_ value, size_ := s.size_ + 1 })

/-- Method `PopBack`: the outcome of the call and the object after it. -/
def PopBack [Inhabited T] (s : StackVector T N) : Except StdExcept T × StackVector T N :=
  if s.size_ = 0 then (Except.error StdExcept.underflow_error, s)
  else (Except.ok (s.vector_.getD (s.size_ - 1) default), { s with size_ := s.size_ - 1 })

end StackVector

/-! ## The standard algorithms, slot by slot -/

namespace SimpleVec

variable {T : Type}

theorem length_copyLoop [Inhabited T] (n : Nat) (src : List T) (first : Nat) (dst : List T)
    (d : Nat) : (copyLoop n src first dst d).length = dst.length := by
  induction n generalizing first dst d with
  | zero => rfl
  | succ n ih => simp [copyLoop, ih]

theorem getElem?_copyLoop [Inhabited T] (n : Nat) (src : List T) (first : Nat) (dst : List T)
    (d j : Nat) (hs : first + n ≤ src.length) (hd : d + n ≤ dst.length) :
    (copyLoop n src first dst d)[j]? =
      if d ≤ j ∧ j < d + n then src[first + (j - d)]? else dst[j]? := by
  induction n generalizing first dst d with
  | zero =>
    have : ¬ (d ≤ j ∧ j < d) := by omega
    simp [copyLoop, this]
  | succ n ih =>
    have hlen : (dst.set d (src.getD first default)).length = dst.length := by simp
    rw [copyLoop, ih (first + 1) _ (d + 1) (by omega) (by omega)]
    by_cases h1 : d + 1 ≤ j ∧ j < d + 1 + n
    · have h2 : d ≤ j ∧ j < d + (n + 1) := by omega
      have h3 : first + 1 + (j - (d + 1)) = first + (j - d) := by omega
      rw [if_pos h1, if_pos h2, h3]
    · rw [if_neg h1, List.getElem?_set]
      by_cases h4 : d = j
      · subst h4
        have h2 : d ≤ d ∧ d < d + (n + 1) := by omega
        have h5 : d < dst.length := by omega
        have h6 : first < src.length := by omega
        simp [h2, h5, h6]
      · have h2 : ¬ (d ≤ j ∧ j < d + (n + 1)) := by omega
        rw [if_neg h4, if_neg h2]

theorem length_moveWithinLoop [Inhabited T] (n : Nat) (a : List T) (first d : Nat) :
    (moveWithinLoop n a first d).length = a.length := by
  induction n generalizing a first d with
  | zero => rfl
  | succ n ih => simp [moveWithinLoop, ih]

theorem getElem?_moveWithinLoop [Inhabited T] (n : Nat) (a : List T) (first d j : Nat)
    (hdf : d ≤ first) (hs : first + n ≤ a.length) :
    (moveWithinLoop n a first d)[j]? =
      if d ≤ j ∧ j < d + n then a[first + (j - d)]? else a[j]? := by
  induction n generalizing a first d with
  | zero =>
    have : ¬ (d ≤ j ∧ j < d) := by omega
    simp [moveWithinLoop, this]
  | succ n ih =>
    rw [moveWithinLoop, ih _ (first + 1) (d + 1) (by omega) (by simp; omega)]
    by_cases h1 : d + 1 ≤ j ∧ j < d + 1 + n
    · have h2 : d ≤ j ∧ j < d + (n + 1) := by omega
      have h3 : first + 1 + (j - (d + 1)) = first + (j - d) := by omega
      have h4 : d ≠ first + (j - d) := by omega
      rw [if_pos h1, if_pos h2, h3, List.getElem?_set, if_neg h4]
    · rw [if_neg h1, List.getElem?_set]
      by_cases h4 : d = j
      · subst h4
        have h2 : d ≤ d ∧ d < d + (n + 1) := by omega
        have h5 : d < a.length := by omega
        have h6 : first < a.length := by omega
        simp [h2, h5, h6]
      · have h2 : ¬ (d ≤ j ∧ j < d + (n + 1)) := by omega
        rw [if_neg h4, if_neg h2]

theorem length_copyBackwardLoop [Inhabited T] (n : Nat) (a : List T) (last dlast : Nat) :
    (copyBackwardLoop n a last dlast).length = a.length := by
  induction n generalizing a last dlast with
  | zero => rfl
  | succ n ih => simp [copyBackwardLoop, ih]

theorem getElem?_copyBackwardLoop [Inhabited T] (n : Nat) (a : List T) (last dlast j : Nat)
    (hn : n ≤ last) (hld : last ≤ dlast) (hd : dlast ≤ a.length) :
    (copyBackwardLoop n a last dlast)[j]? =
      if dlast - n ≤ j ∧ j < dlast then a[last - (dlast - j)]? else a[j]? := by
  induction n generalizing a last dlast with
  | zero =>
    have : ¬ (dlast ≤ j ∧ j < dlast) := by omega
    simp [copyBackwardLoop, this]
  | succ n ih =>
    rw [copyBackwardLoop, ih _ (last - 1) (dlast - 1) (by omega) (by omega) (by simp; omega)]
    by_cases h1 : dlast - 1 - n ≤ j ∧ j < dlast - 1
    · have h2 : dlast - (n + 1) ≤ j ∧ j < dlast := by omega
      have h3 : last - 1 - (dlast - 1 - j) = last - (dlast - j) := by omega
      have h4 : dlast - 1 ≠ last - (dlast - j) := by omega
      rw [if_pos h1, if_pos h2, h3, List.getElem?_set, if_neg h4]
    · rw [if_neg h1, List.getElem?_set]
      by_cases h4 : dlast - 1 = j
      · subst h4
        have h2 : dlast - (n + 1) ≤ dlast - 1 ∧ dlast - 1 < dlast := by omega
        have h5 : dlast - 1 < a.length := by omega
        have h6 : last - 1 < a.length := by omega
        have h7 : last - (dlast - (dlast - 1)) = last - 1 := by omega
        simp [h2, h5, h6, h7]
      · have h2 : ¬ (dlast - (n + 1) ≤ j ∧ j < dlast) := by omega
        rw [if_neg h4, if_neg h2]

theorem length_fillLoop (n : Nat) (a : List T) (first : Nat) (x : T) :
    (fillLoop n a first x).length = a.length := by
  induction n generalizing a first with
  | zero => rfl
  | succ n ih => simp [fillLoop, ih]

theorem getElem?_fillLoop (n : Nat) (a : List T) (first : Nat) (x : T) (j : Nat)
    (h : first + n ≤ a.length) :
    (fillLoop n a first x)[j]? = if first ≤ j ∧ j < first + n then some x else a[j]? := by
  induction n generalizing a first with
  | zero =>
    have : ¬ (first ≤ j ∧ j < first) := by omega
    simp [fillLoop, this]
  | succ n ih =>
    rw [fillLoop, ih _ (first + 1) (by simp; omega)]
    by_cases h1 : first + 1 ≤ j ∧ j < first + 1 + n
    · have h2 : first ≤ j ∧ j < first + (n + 1) := by omega
      rw [if_pos h1, if_pos h2]
    · rw [if_neg h1, List.getElem?_set]
      by_cases h4 : first = j
      · subst h4
        have h2 : first ≤ first ∧ first < first + (n + 1) := by omega
        have h5 : first < a.length := by omega
        simp [h2, h5]
      · have h2 : ¬ (first ≤ j ∧ j < first + (n + 1)) := by omega
        rw [if_neg h4, if_neg h2]

end SimpleVec

/-! ## Constructors, `Reserve` and `PushBack` -/

namespace SimpleVector

open SimpleVec

variable {T : Type}

theorem length_sized_items [Inhabited T] (n : Nat) :
    (sized n : SimpleVector T).items_.length = n := by
  simp [sized, stdGenerate, ArrayPtr, length_fillLoop]

theorem length_stdCopy [Inhabited T] (src : List T) (first last : Nat) (dst : List T)
    (d : Nat) : (stdCopy src first last dst d).length = dst.length :=
  length_copyLoop _ _ _ _ _

theorem Reserve_le [Inhabited T] (v : SimpleVector T) (c : Nat) (h : c ≤ v.capacity_) :
    v.Reserve c = v := by
  unfold Reserve
  rw [if_neg (by omega)]

theorem Reserve_size [Inhabited T] (v : SimpleVector T) (c : Nat) :
    (v.Reserve c).size_ = v.size_ := by
  unfold Reserve
  split <;> rfl

theorem Reserve_capacity_gt [Inhabited T] (v : SimpleVector T) (c : Nat)
    (h : v.capacity_ < c) : (v.Reserve c).capacity_ = c := by
  unfold Reserve
  rw [if_pos h]

theorem Reserve_WF [Inhabited T] (v : SimpleVector T) (c : Nat) (h : v.WF) :
    (v.Reserve c).WF := by
  unfold Reserve
  split
  · obtain ⟨h1, h2⟩ := h
    refine ⟨?_, ?_⟩
    · simp only [length_stdCopy, length_sized_items]
    · show v.size_ ≤ c
      omega
  · exact h

theorem Reserve_items_getElem? [Inhabited T] (v : SimpleVector T) (c j : Nat) (h : v.WF)
    (hj : j < v.size_) : (v.Reserve c).items_[j]? = v.items_[j]? := by
  unfold Reserve
  split
  · obtain ⟨h1, h2⟩ := h
    show (stdCopy v.items_ 0 v.size_ (sized c).items_ 0)[j]? = _
    rw [stdCopy, getElem?_copyLoop _ _ _ _ _ _ (by omega) (by rw [length_sized_items]; omega)]
    rw [if_pos (by omega)]
    congr 1
    omega
  · rfl

theorem Reserve_toList [Inhabited T] (v : SimpleVector T) (c : Nat) (h : v.WF) :
    (v.Reserve c).toList = v.toList := by
  apply List.ext_getElem?
  intro j
  rw [toList, toList, Reserve_size, List.getElem?_take, List.getElem?_take]
  by_cases hj : j < v.size_
  · rw [if_pos hj, if_pos hj, Reserve_items_getElem? v c j h hj]
  · rw [if_neg hj, if_neg hj]

theorem PushBack_size [Inhabited T] (v : SimpleVector T) (x : T) :
    (v.PushBack x).size_ = v.size_ + 1 := by
  unfold PushBack
  split
  · split
    · simp [Reserve_size]
    · rfl
  · split <;> rfl

theorem PushBack_capacity_zero [Inhabited T] (v : SimpleVector T) (x : T) (h : v.WF)
    (h0 : v.capacity_ = 0) : (v.PushBack x).capacity_ = 10 := by
  obtain ⟨h1, h2⟩ := h
  have hs : v.size_ = 0 := by omega
  unfold PushBack
  simp [IsEmpty, hs, h0, Reserve]

theorem PushBack_capacity_lt [Inhabited T] (v : SimpleVector T) (x : T)
    (hlt : v.size_ < v.capacity_) : (v.PushBack x).capacity_ = v.capacity_ := by
  have hc : v.capacity_ ≠ 0 := by omega
  unfold PushBack
  split
  · simp [hc]
  · simp [hlt]

theorem PushBack_capacity_full [Inhabited T] (v : SimpleVector T) (x : T)
    (h0 : v.capacity_ ≠ 0) (hfull : v.size_ = v.capacity_) :
    (v.PushBack x).capacity_ = 2 * v.capacity_ := by
  have hs : ¬ v.size_ = 0 := by omega
  unfold PushBack
  simp [IsEmpty, hfull, h0, Nat.mul_comm]

end SimpleVector

/-! ## Sequences described slot by slot -/

namespace SimpleVec

variable {T : Type}

/-- A block that agrees with `old` below `n` and holds `x` in slot `n` has the
first `n` elements of `old` followed by `x` as its first `n + 1` elements. -/
theorem take_succ_eq_append (old new : List T) (n : Nat) (x : T) (hn : n ≤ old.length)
    (hpre : ∀ j, j < n → new[j]? = old[j]?) (hx : new[n]? = some x) :
    new.take (n + 1) = old.take n ++ [x] := by
  apply List.ext_getElem?
  intro j
  have hl : (List.take n old).length = n := by rw [List.length_take]; omega
  rw [List.getElem?_take, List.getElem?_append, hl]
  by_cases c : j < n
  · rw [if_pos (by omega), if_pos c, hpre j c, List.getElem?_take, if_pos c]
  · rw [if_neg c]
    by_cases e : j = n
    · subst e; simp [hx]
    · rw [if_neg (by omega)]
      symm
      apply List.getElem?_eq_none
      have : 1 ≤ j - n := by omega
      simpa using this

/-- A block that agrees with `old` below `i`, holds `x` in slot `i` and holds
the old slot `j - 1` in every slot `j` with `i < j ≤ n`, has as its first
`n + 1` elements the first `n` elements of `old` with `x` put in before
index `i`. -/
theorem take_succ_eq_insert (old new : List T) (n i : Nat) (x : T) (hi : i ≤ n)
    (hn : n ≤ old.length) (hpre : ∀ j, j < i → new[j]? = old[j]?) (hx : new[i]? = some x)
    (hsuf : ∀ j, i < j → j ≤ n → new[j]? = old[j - 1]?) :
    new.take (n + 1) = (old.take n).take i ++ x :: (old.take n).drop i := by
  apply List.ext_getElem?
  intro j
  have hl : (List.take i (List.take n old)).length = i := by
    rw [List.length_take, List.length_take]; omega
  rw [List.getElem?_take, List.getElem?_append, hl]
  by_cases c : j < i
  · rw [if_pos (by omega), if_pos c, hpre j c, List.getElem?_take, if_pos c,
      List.getElem?_take, if_pos (by omega)]
  · rw [if_neg c]
    by_cases e : j = i
    · subst e
      have : j < n + 1 := by omega
      simp [hx, this]
    · obtain ⟨k, hk⟩ : ∃ k, j - i = k + 1 := ⟨j - i - 1, by omega⟩
      rw [hk, List.getElem?_cons_succ, List.getElem?_drop, List.getElem?_take]
      by_cases c2 : j < n + 1
      · rw [if_pos c2, if_pos (by omega), hsuf j (by omega) (by omega)]
        congr 1
        omega
      · rw [if_neg c2, if_neg (by omega)]

/-- A block that agrees with `old` below `i` and holds the old slot `j + 1` in
every slot `j` with `i ≤ j < n - 1`, has as its first `n - 1` elements the
first `n` elements of `old` without the one at index `i`. -/
theorem take_pred_eq_eraseIdx (old new : List T) (n i : Nat) (hi : i < n)
    (hpre : ∀ j, j < i → new[j]? = old[j]?)
    (hsuf : ∀ j, i ≤ j → j < n - 1 → new[j]? = old[j + 1]?) :
    new.take (n - 1) = (old.take n).eraseIdx i := by
  apply List.ext_getElem?
  intro j
  rw [List.getElem?_take, List.getElem?_eraseIdx]
  by_cases c : j < i
  · rw [if_pos (by omega), if_pos c, hpre j c, List.getElem?_take, if_pos (by omega)]
  · rw [if_neg c, List.getElem?_take]
    by_cases c2 : j < n - 1
    · rw [if_pos c2, if_pos (by omega), hsuf j (by omega) c2]
    · rw [if_neg c2, if_neg (by omega)]

end SimpleVec

namespace SimpleVector

open SimpleVec

variable {T : Type}

theorem PushBack_WF [Inhabited T] (v : SimpleVector T) (x : T) (h : v.WF) :
    (v.PushBack x).WF := by
  obtain ⟨h1, h2⟩ := h
  unfold PushBack
  split
  · rename_i he
    have hs : v.size_ = 0 := by simpa [IsEmpty] using he
    split
    · rename_i h0
      have hw := Reserve_WF v 10 ⟨h1, h2⟩
      have hc := Reserve_capacity_gt v 10 (by omega)
      have hz := Reserve_size v 10
      obtain ⟨w1, w2⟩ := hw
      refine ⟨?_, ?_⟩
      · simpa using w1
      · show (v.Reserve 10).size_ + 1 ≤ (v.Reserve 10).capacity_
        omega
    · refine ⟨?_, ?_⟩
      · simpa using h1
      · show v.size_ + 1 ≤ v.capacity_
        omega
  · split
    · refine ⟨?_, ?_⟩
      · simpa using h1
      · show v.size_ + 1 ≤ v.capacity_
        omega
    · rename_i he hlt
      have hs : v.size_ ≠ 0 := by simpa [IsEmpty] using he
      refine ⟨?_, ?_⟩
      · simp [length_stdCopy, ArrayPtr]
      · show v.size_ + 1 ≤ v.capacity_ * 2
        omega

theorem PushBack_toList [Inhabited T] (v : SimpleVector T) (x : T) (h : v.WF) :
    (v.PushBack x).toList = v.toList ++ [x] := by
  obtain ⟨h1, h2⟩ := h
  rw [toList, PushBack_size, toList]
  apply take_succ_eq_append _ _ _ _ (by omega)
  · intro j hj
    unfold PushBack
    split
    · rename_i he
      have hs : v.size_ = 0 := by simpa [IsEmpty] using he
      omega
    · split
      · show (v.items_.set v.size_ x)[j]? = _
        rw [List.getElem?_set, if_neg (by omega)]
      · show ((stdCopy v.items_ 0 v.size_ (ArrayPtr (v.capacity_ * 2)) 0).set v.size_ x)[j]? = _
        rw [List.getElem?_set, if_neg (by omega), stdCopy,
          getElem?_copyLoop _ _ _ _ _ _ (by omega) (by simp [ArrayPtr]; omega),
          if_pos (by omega)]
        congr 1
        omega
  · unfold PushBack
    split
    · rename_i he
      have hs : v.size_ = 0 := by simpa [IsEmpty] using he
      split
      · have hw := Reserve_WF v 10 ⟨h1, h2⟩
        have hc := Reserve_capacity_gt v 10 (by omega)
        obtain ⟨w1, w2⟩ := hw
        show ((v.Reserve 10).items_.set 0 x)[v.size_]? = some x
        rw [hs, List.getElem?_set, if_pos rfl, if_pos (by omega)]
      · show (v.items_.set 0 x)[v.size_]? = some x
        rw [hs, List.getElem?_set, if_pos rfl, if_pos (by omega)]
    · split
      · show (v.items_.set v.size_ x)[v.size_]? = some x
        rw [List.getElem?_set, if_pos rfl, if_pos (by omega)]
      · rename_i he hlt
        have hs : v.size_ ≠ 0 := by simpa [IsEmpty] using he
        show ((stdCopy v.items_ 0 v.size_ (ArrayPtr (v.capacity_ * 2)) 0).set v.size_ x)[v.size_]?
          = some x
        rw [List.getElem?_set, if_pos rfl, if_pos (by simp [length_stdCopy, ArrayPtr]; omega)]

end SimpleVector

/-! ## `Insert`, `Erase` and `Resize` -/

namespace SimpleVector

open SimpleVec

variable {T : Type}

theorem Insert_end [Inhabited T] (v : SimpleVector T) (x : ConstRef T) :
    v.Insert v.size_ x = some (v.PushBack (x.read v.items_), v.size_) := by
  unfold Insert
  simp [PushBack_size]

theorem Insert_shift [Inhabited T] (v : SimpleVector T) (pos : Nat) (x : ConstRef T)
    (hp : pos < v.size_) (hc : v.size_ < v.capacity_) :
    v.Insert pos x =
      some ({ v with items_ := insertShifted v pos x, size_ := v.size_ + 1 }, pos) := by
  unfold Insert
  rw [if_neg (by omega), if_neg (by omega), if_pos hc]
  rfl

theorem Insert_realloc [Inhabited T] (v : SimpleVector T) (pos : Nat) (x : ConstRef T)
    (hp : pos < v.size_) (hc : ¬ v.size_ < v.capacity_) :
    v.Insert pos x =
      some ({ items_ := insertRealloc v pos x, size_ := v.size_ + 1,
              capacity_ := 2 * v.capacity_ }, pos) := by
  unfold Insert
  rw [if_neg (by omega), if_neg (by omega), if_neg hc]
  rfl

theorem length_shiftedBlock [Inhabited T] (v : SimpleVector T) (pos : Nat) :
    (shiftedBlock v pos).length = v.items_.length := by
  simp [shiftedBlock, stdCopyBackward, length_copyBackwardLoop]

theorem length_reallocBlock [Inhabited T] (v : SimpleVector T) (pos : Nat) :
    (reallocBlock v pos).length = 2 * v.capacity_ := by
  simp [reallocBlock, length_stdCopy, length_sized_items]

theorem length_insertShifted [Inhabited T] (v : SimpleVector T) (pos : Nat)
    (x : ConstRef T) : (insertShifted v pos x).length = v.items_.length := by
  simp [insertShifted, length_shiftedBlock]

theorem length_insertRealloc [Inhabited T] (v : SimpleVector T) (pos : Nat)
    (x : ConstRef T) : (insertRealloc v pos x).length = 2 * v.capacity_ := by
  simp [insertRealloc, length_reallocBlock]

/-- Slot by slot, the block after the shift of `Insert`. -/
theorem getElem?_shiftedBlock [Inhabited T] (v : SimpleVector T) (pos j : Nat) (h : v.WF)
    (hp : pos < v.size_) (hc : v.size_ < v.capacity_) :
    (shiftedBlock v pos)[j]? =
      if pos < j ∧ j ≤ v.size_ then v.items_[j - 1]? else v.items_[j]? := by
  obtain ⟨h1, h2⟩ := h
  rw [shiftedBlock, stdCopyBackward,
    getElem?_copyBackwardLoop _ _ _ _ _ (by omega) (by omega) (by omega)]
  by_cases c : pos < j ∧ j ≤ v.size_
  · rw [if_pos (by omega), if_pos c]
    congr 1
    omega
  · rw [if_neg (by omega), if_neg c]

/-- Whatever value is written through `pos` after the shift, the first
`size + 1` slots are the old elements with that value put in before index
`pos`. -/
theorem shiftedBlock_set_take [Inhabited T] (v : SimpleVector T) (pos : Nat) (y : T)
    (h : v.WF) (hp : pos < v.size_) (hc : v.size_ < v.capacity_) :
    ((shiftedBlock v pos).set pos y).take (v.size_ + 1) =
      v.toList.take pos ++ y :: v.toList.drop pos := by
  have key := fun j => getElem?_shiftedBlock v pos j h hp hc
  obtain ⟨h1, h2⟩ := h
  have hlen : pos < (shiftedBlock v pos).length := by
    rw [length_shiftedBlock]; omega
  apply take_succ_eq_insert _ _ _ _ _ (by omega) (by omega)
  · intro j hj
    rw [List.getElem?_set, if_neg (by omega), key, if_neg (by omega)]
  · rw [List.getElem?_set, if_pos rfl, if_pos hlen]
  · intro j hj1 hj2
    rw [List.getElem?_set, if_neg (by omega), key, if_pos (by omega)]

theorem insertShifted_take [Inhabited T] (v : SimpleVector T) (pos : Nat) (x : ConstRef T)
    (h : v.WF) (hp : pos < v.size_) (hc : v.size_ < v.capacity_) :
    (insertShifted v pos x).take (v.size_ + 1) =
      v.toList.take pos ++ x.read (shiftedBlock v pos) :: v.toList.drop pos :=
  shiftedBlock_set_take v pos _ h hp hc

theorem insertRealloc_take [Inhabited T] (v : SimpleVector T) (pos : Nat) (x : ConstRef T)
    (h : v.WF) (hp : pos < v.size_) (hc : ¬ v.size_ < v.capacity_) :
    (insertRealloc v pos x).take (v.size_ + 1) =
      v.toList.take pos ++ x.read v.items_ :: v.toList.drop pos := by
  obtain ⟨h1, h2⟩ := h
  unfold insertRealloc reallocBlock
  have hs := length_sized_items (T := T) (2 * v.capacity_)
  have inner : ∀ j, (stdCopy v.items_ 0 pos (sized (2 * v.capacity_) : SimpleVector T).items_ 0)[j]?
      = if 0 ≤ j ∧ j < 0 + (pos - 0) then v.items_[0 + (j - 0)]?
        else (sized (2 * v.capacity_) : SimpleVector T).items_[j]? := fun j =>
    getElem?_copyLoop _ _ _ _ _ _ (by omega) (by omega)
  have outer : ∀ j, (stdCopy v.items_ pos v.size_
      (stdCopy v.items_ 0 pos (sized (2 * v.capacity_) : SimpleVector T).items_ 0) (pos + 1))[j]?
      = if pos + 1 ≤ j ∧ j < pos + 1 + (v.size_ - pos) then v.items_[pos + (j - (pos + 1))]?
        else (stdCopy v.items_ 0 pos (sized (2 * v.capacity_) : SimpleVector T).items_ 0)[j]? :=
    fun j => getElem?_copyLoop _ _ _ _ _ _ (by omega) (by rw [length_stdCopy]; omega)
  apply take_succ_eq_insert _ _ _ _ _ (by omega) (by omega)
  · intro j hj
    rw [List.getElem?_set, if_neg (by omega), outer, if_neg (by omega), inner,
      if_pos (by omega)]
    congr 1
    omega
  · rw [List.getElem?_set, if_pos rfl,
      if_pos (by rw [length_stdCopy, length_stdCopy]; omega)]
  · intro j hj1 hj2
    rw [List.getElem?_set, if_neg (by omega), outer, if_pos (by omega)]
    congr 1
    omega

theorem Erase_lt [Inhabited T] (v : SimpleVector T) (pos : Nat) (hp : pos < v.size_) :
    v.Erase pos = some ({ v with items_ := eraseShifted v pos, size_ := v.size_ - 1 }, pos) := by
  have hs : v.size_ ≠ 0 := by omega
  unfold Erase
  simp [IsEmpty, hs, hp, eraseShifted]

theorem length_eraseShifted [Inhabited T] (v : SimpleVector T) (pos : Nat) :
    (eraseShifted v pos).length = v.items_.length := by
  simp [eraseShifted, stdMoveWithin, length_moveWithinLoop]

theorem getElem?_eraseShifted [Inhabited T] (v : SimpleVector T) (pos j : Nat) (h : v.WF)
    (hp : pos < v.size_) :
    (eraseShifted v pos)[j]? =
      if pos ≤ j ∧ j < v.size_ - 1 then v.items_[j + 1]? else v.items_[j]? := by
  obtain ⟨h1, h2⟩ := h
  rw [eraseShifted, stdMoveWithin, getElem?_moveWithinLoop _ _ _ _ _ (by omega) (by omega)]
  by_cases c : pos ≤ j ∧ j < v.size_ - 1
  · rw [if_pos c, if_pos (by omega)]
    congr 1
    omega
  · rw [if_neg c, if_neg (by omega)]

theorem eraseShifted_take [Inhabited T] (v : SimpleVector T) (pos : Nat) (h : v.WF)
    (hp : pos < v.size_) :
    (eraseShifted v pos).take (v.size_ - 1) = v.toList.eraseIdx pos := by
  apply take_pred_eq_eraseIdx _ _ _ _ hp
  · intro j hj
    rw [getElem?_eraseShifted v pos j h hp, if_neg (by omega)]
  · intro j hj1 hj2
    rw [getElem?_eraseShifted v pos j h hp, if_pos (by omega)]

end SimpleVector

namespace SimpleVector

open SimpleVec

variable {T : Type}

/-- What `Insert` does at any position up to `end()`, on a valid vector: some
value `y` is put in before index `i`, and `y` is the value the reference held
at the call unless the shift branch runs and the reference is to a slot that
the shift overwrites (a slot `k` with `i < k ≤ size`). -/
theorem Insert_spec [Inhabited T] (v : SimpleVector T) (i : Nat) (x : ConstRef T)
    (h : v.WF) (hi : i ≤ v.size_) :
    ∃ (r : SimpleVector T) (y : T), v.Insert i x = some (r, i) ∧ r.WF ∧
      r.size_ = v.size_ + 1 ∧
      r.toList = v.toList.take i ++ y :: v.toList.drop i ∧
      ((∀ k, x = ConstRef.slot k → v.size_ < v.capacity_ → i < k → v.size_ < k) →
        y = x.read v.items_) := by
  have hlen : v.toList.length = v.size_ := by
    rw [toList, List.length_take]; have := h.1; have := h.2; omega
  by_cases he : i = v.size_
  · subst he
    refine ⟨v.PushBack (x.read v.items_), x.read v.items_, Insert_end v x,
      PushBack_WF v _ h, PushBack_size v _, ?_, fun _ => rfl⟩
    rw [PushBack_toList v _ h, List.take_of_length_le (by omega),
      List.drop_of_length_le (by omega)]
  · have hp : i < v.size_ := by omega
    by_cases hc : v.size_ < v.capacity_
    · refine ⟨_, x.read (shiftedBlock v i), Insert_shift v i x hp hc, ⟨?_, ?_⟩, rfl,
        insertShifted_take v i x h hp hc, fun hsafe => ?_⟩
      · show (insertShifted v i x).length = v.capacity_
        rw [length_insertShifted]; exact h.1
      · show v.size_ + 1 ≤ v.capacity_
        omega
      · cases x with
        | outside a => rfl
        | slot k =>
          have hk : ¬ (i < k ∧ k ≤ v.size_) := by
            intro hcon
            have := hsafe k rfl hc hcon.1
            omega
          show (shiftedBlock v i).getD k default = v.items_.getD k default
          rw [List.getD_eq_getElem?_getD, List.getD_eq_getElem?_getD,
            getElem?_shiftedBlock v i k h hp hc, if_neg hk]
    · refine ⟨_, x.read v.items_, Insert_realloc v i x hp hc, ⟨?_, ?_⟩, rfl,
        insertRealloc_take v i x h hp hc, fun _ => rfl⟩
      · exact length_insertRealloc v i x
      · show v.size_ + 1 ≤ 2 * v.capacity_
        have := h.2
        omega

/-- What `Erase` does at any position before `end()`, on a valid vector. -/
theorem Erase_spec [Inhabited T] (v : SimpleVector T) (i : Nat) (h : v.WF)
    (hi : i < v.size_) :
    ∃ r : SimpleVector T, v.Erase i = some (r, i) ∧ r.WF ∧ r.size_ = v.size_ - 1 ∧
      r.capacity_ = v.capacity_ ∧ r.toList = v.toList.eraseIdx i := by
  refine ⟨_, Erase_lt v i hi, ⟨?_, ?_⟩, rfl, rfl, eraseShifted_take v i h hi⟩
  · show (eraseShifted v i).length = v.capacity_
    rw [length_eraseShifted]; exact h.1
  · show v.size_ - 1 ≤ v.capacity_
    have := h.2
    omega

theorem eraseIdx_take_cons_drop (l : List T) (i : Nat) (x : T) (hi : i ≤ l.length) :
    (l.take i ++ x :: l.drop i).eraseIdx i = l := by
  have hl : (l.take i).length = i := by rw [List.length_take]; omega
  rw [List.eraseIdx_append_of_length_le (by omega), hl, Nat.sub_self]
  simp

theorem Resize_size [Inhabited T] (v : SimpleVector T) (n : Nat) :
    (v.Resize n).size_ = n := by
  unfold Resize
  split
  · rfl
  · split <;> rfl

theorem Resize_capacity [Inhabited T] (v : SimpleVector T) (n : Nat) (h : v.WF) :
    (v.Resize n).capacity_ = max v.capacity_ n := by
  have := h.2
  unfold Resize
  split
  · rename_i h1
    show v.capacity_ = _
    omega
  · split
    · rename_i h1 h2
      show v.capacity_ = _
      omega
    · rename_i h1 h2
      show (v.Reserve n).capacity_ = _
      rw [Reserve_capacity_gt v n (by omega)]
      omega

theorem Resize_length [Inhabited T] (v : SimpleVector T) (n : Nat) (h : v.WF) :
    (v.Resize n).items_.length = max v.capacity_ n := by
  obtain ⟨h1, h2⟩ := h
  unfold Resize
  split
  · show v.items_.length = _
    omega
  · split
    · show (stdGenerate v.items_ v.size_ n).length = _
      rw [stdGenerate, length_fillLoop]
      omega
    · show (stdGenerate (v.Reserve n).items_ (v.Reserve n).size_ n).length = _
      have hw := (Reserve_WF v n ⟨h1, h2⟩).1
      rw [stdGenerate, length_fillLoop, hw, Reserve_capacity_gt v n (by omega)]
      omega

theorem Resize_items_old [Inhabited T] (v : SimpleVector T) (n j : Nat) (h : v.WF)
    (hj : j < v.size_) : (v.Resize n).items_[j]? = v.items_[j]? := by
  obtain ⟨h1, h2⟩ := h
  unfold Resize
  split
  · rfl
  · split
    · show (stdGenerate v.items_ v.size_ n)[j]? = _
      rw [stdGenerate, getElem?_fillLoop _ _ _ _ _ (by omega), if_neg (by omega)]
    · show (stdGenerate (v.Reserve n).items_ (v.Reserve n).size_ n)[j]? = _
      have hw := (Reserve_WF v n ⟨h1, h2⟩).1
      have hc := Reserve_capacity_gt v n (by omega)
      rw [stdGenerate, Reserve_size, getElem?_fillLoop _ _ _ _ _ (by omega),
        if_neg (by omega), Reserve_items_getElem? v n j ⟨h1, h2⟩ hj]

theorem Resize_items_new [Inhabited T] (v : SimpleVector T) (n j : Nat) (h : v.WF)
    (hj1 : v.size_ ≤ j) (hj2 : j < n) : (v.Resize n).items_[j]? = some default := by
  obtain ⟨h1, h2⟩ := h
  unfold Resize
  split
  · omega
  · split
    · show (stdGenerate v.items_ v.size_ n)[j]? = _
      rw [stdGenerate, getElem?_fillLoop _ _ _ _ _ (by omega), if_pos (by omega)]
    · show (stdGenerate (v.Reserve n).items_ (v.Reserve n).size_ n)[j]? = _
      have hw := (Reserve_WF v n ⟨h1, h2⟩).1
      have hc := Reserve_capacity_gt v n (by omega)
      rw [stdGenerate, Reserve_size, getElem?_fillLoop _ _ _ _ _ (by omega),
        if_pos (by omega)]

/-! ### Runs of `PushBack` -/

theorem pushAll_cons [Inhabited T] (v : SimpleVector T) (x : T) (xs : List T) :
    pushAll v (x :: xs) = pushAll (v.PushBack x) xs := rfl

theorem pushAll_size [Inhabited T] (v : SimpleVector T) (xs : List T) :
    (pushAll v xs).size_ = v.size_ + xs.length := by
  induction xs generalizing v with
  | nil => rfl
  | cons x xs ih =>
    rw [pushAll_cons, ih, PushBack_size, List.length_cons]
    omega

theorem PushBack_capacity_mono [Inhabited T] (v : SimpleVector T) (x : T) :
    v.capacity_ ≤ (v.PushBack x).capacity_ := by
  unfold PushBack
  split
  · split
    · rename_i h0
      show v.capacity_ ≤ (v.Reserve 10).capacity_
      rw [Reserve_capacity_gt v 10 (by omega)]
      omega
    · exact Nat.le_refl _
  · split
    · exact Nat.le_refl _
    · show v.capacity_ ≤ v.capacity_ * 2
      omega

theorem DoublingFrom10_first [Inhabited T] (x : T) :
    DoublingFrom10 ((empty : SimpleVector T).PushBack x) := by
  have hw : (empty : SimpleVector T).WF := ⟨rfl, Nat.le_refl _⟩
  refine ⟨PushBack_WF _ x hw, ?_, 0, ?_, ?_⟩
  · rw [PushBack_size]; omega
  · rw [PushBack_capacity_zero _ x hw rfl]; simp
  · intro j _; omega

theorem DoublingFrom10_step [Inhabited T] (v : SimpleVector T) (x : T)
    (h : DoublingFrom10 v) : DoublingFrom10 (v.PushBack x) := by
  obtain ⟨hw, h1, k, hk, hmin⟩ := h
  refine ⟨PushBack_WF v x hw, ?_, ?_⟩
  · rw [PushBack_size]; omega
  · by_cases hlt : v.size_ < v.capacity_
    · refine ⟨k, ?_, ?_⟩
      · rw [PushBack_capacity_lt v x hlt, hk]
      · intro j hj
        rw [PushBack_size] at hj
        exact hmin j (by omega)
    · have hfull : v.size_ = v.capacity_ := by have := hw.2; omega
      refine ⟨k + 1, ?_, ?_⟩
      · rw [PushBack_capacity_full v x (by omega) hfull, hk, Nat.pow_succ]
        omega
      · intro j hj
        rw [PushBack_size] at hj
        by_contra hcon
        have hjk : j ≤ k := by omega
        have hp : 2 ^ j ≤ 2 ^ k := Nat.pow_le_pow_right (by omega) hjk
        omega

theorem DoublingFrom10_pushAll [Inhabited T] (v : SimpleVector T) (xs : List T)
    (h : DoublingFrom10 v) : DoublingFrom10 (pushAll v xs) := by
  induction xs generalizing v with
  | nil => exact h
  | cons x xs ih => exact ih _ (DoublingFrom10_step v x h)

end SimpleVector

/-! ## The contracts of the mutating operations -/

namespace SimpleVector

open SimpleVec

variable {T : Type}

/-- C1: `PushBack(x)` on any valid vector leaves the previous logical elements
followed by `x`, raises the size by exactly 1, and leaves the capacity at 10
when it was 0, unchanged when `size < capacity` held, and at twice the old
capacity otherwise.  (`PushBack(Type&&)` has the same control flow.) -/
theorem PushBack_contract [Inhabited T] (v : SimpleVector T) (x : T) (h : v.WF) :
    (v.PushBack x).toList = v.toList ++ [x] ∧
    (v.PushBack x).size_ = v.size_ + 1 ∧
    (v.PushBack x).capacity_ =
      (if v.capacity_ = 0 then 10
       else if v.size_ < v.capacity_ then v.capacity_ else 2 * v.capacity_) := by
  refine ⟨PushBack_toList v x h, PushBack_size v x, ?_⟩
  by_cases h0 : v.capacity_ = 0
  · rw [if_pos h0, PushBack_capacity_zero v x h h0]
  · rw [if_neg h0]
    by_cases hlt : v.size_ < v.capacity_
    · rw [if_pos hlt, PushBack_capacity_lt v x hlt]
    · rw [if_neg hlt]
      exact PushBack_capacity_full v x h0 (by have := h.2; omega)

theorem PushBack_contract_witness :
    (ofInit [1, 2, 3] : SimpleVector Nat).WF ∧
    (((ofInit [1, 2, 3] : SimpleVector Nat).PushBack 4).toList = [1, 2, 3] ++ [4] ∧
      ((ofInit [1, 2, 3] : SimpleVector Nat).PushBack 4).size_ = 3 + 1 ∧
      ((ofInit [1, 2, 3] : SimpleVector Nat).PushBack 4).capacity_ = 6) :=
  ⟨by decide, PushBack_contract (ofInit [1, 2, 3]) 4 (by decide)⟩

/-- C2: after any run of `PushBack` calls from any starting vector, one more
call raises the size by exactly 1 and does not lower the capacity; and a run of
`n ≥ 1` calls from the default-constructed vector ends with size `n` and with
capacity `10 * 2^k` for the least `k` with `n ≤ 10 * 2^k`. -/
theorem PushBack_sequence [Inhabited T] (v : SimpleVector T) (xs : List T) (x : T)
    (ys : List T) (hy : 1 ≤ ys.length) :
    ((pushAll v xs).PushBack x).size_ = (pushAll v xs).size_ + 1 ∧
    (pushAll v xs).capacity_ ≤ ((pushAll v xs).PushBack x).capacity_ ∧
    (pushAll (empty : SimpleVector T) ys).size_ = ys.length ∧
    ∃ k, (pushAll (empty : SimpleVector T) ys).capacity_ = 10 * 2 ^ k ∧
      ys.length ≤ 10 * 2 ^ k ∧ ∀ j, ys.length ≤ 10 * 2 ^ j → k ≤ j := by
  refine ⟨PushBack_size _ x, PushBack_capacity_mono _ x, ?_, ?_⟩
  · rw [pushAll_size]
    show 0 + ys.length = ys.length
    omega
  · cases ys with
    | nil => simp at hy
    | cons y ys =>
      have hd := DoublingFrom10_pushAll _ ys (DoublingFrom10_first y)
      rw [← pushAll_cons] at hd
      obtain ⟨hw, _, k, hk, hmin⟩ := hd
      have hsz : (pushAll (empty : SimpleVector T) (y :: ys)).size_ = (y :: ys).length := by
        rw [pushAll_size]
        show 0 + (y :: ys).length = (y :: ys).length
        omega
      rw [hsz] at hmin
      refine ⟨k, hk, ?_, hmin⟩
      have := hw.2
      omega

theorem PushBack_sequence_witness :
    1 ≤ [1, 2, 3, 4, 5, 6, 7, 8, 9, 10, 11].length ∧
    (((pushAll (ofInit [1, 2, 3] : SimpleVector Nat) [4]).PushBack 5).size_ =
        (pushAll (ofInit [1, 2, 3] : SimpleVector Nat) [4]).size_ + 1 ∧
      (pushAll (ofInit [1, 2, 3] : SimpleVector Nat) [4]).capacity_ ≤
        ((pushAll (ofInit [1, 2, 3] : SimpleVector Nat) [4]).PushBack 5).capacity_ ∧
      (pushAll (empty : SimpleVector Nat) [1, 2, 3, 4, 5, 6, 7, 8, 9, 10, 11]).size_ =
        [1, 2, 3, 4, 5, 6, 7, 8, 9, 10, 11].length ∧
      ∃ k, (pushAll (empty : SimpleVector Nat) [1, 2, 3, 4, 5, 6, 7, 8, 9, 10, 11]).capacity_ =
          10 * 2 ^ k ∧
        [1, 2, 3, 4, 5, 6, 7, 8, 9, 10, 11].length ≤ 10 * 2 ^ k ∧
        ∀ j, [1, 2, 3, 4, 5, 6, 7, 8, 9, 10, 11].length ≤ 10 * 2 ^ j → k ≤ j) :=
  ⟨by decide,
    PushBack_sequence (ofInit [1, 2, 3]) [4] 5 [1, 2, 3, 4, 5, 6, 7, 8, 9, 10, 11] (by decide)⟩

/-- The part of the `Insert` contract the code keeps: `Insert(begin + i, value)`
with `i ≤ size` on any valid vector, where `value` does not refer to a slot
that the shift branch overwrites, succeeds, leaves the first `i` old elements,
then the value, then the remaining old elements, raises the size by exactly 1,
and returns offset `i`, the slot that holds the value. -/
theorem Insert_value_kept [Inhabited T] (v : SimpleVector T) (i : Nat) (value : ConstRef T)
    (h : v.WF) (hi : i ≤ v.size_)
    (hsafe : ∀ k, value = ConstRef.slot k → v.size_ < v.capacity_ → i < k → v.size_ < k) :
    ∃ r : SimpleVector T × Nat, v.Insert i value = some r ∧
      r.1.toList = v.toList.take i ++ value.read v.items_ :: v.toList.drop i ∧
      r.1.size_ = v.size_ + 1 ∧
      r.2 = i ∧ r.1.items_[r.2]? = some (value.read v.items_) := by
  obtain ⟨r, y, hr, _, hs, hl, hy⟩ := Insert_spec v i value h hi
  rw [hy hsafe] at hl
  refine ⟨(r, i), hr, hl, hs, rfl, ?_⟩
  have hlen : (v.toList.take i).length = i := by
    rw [List.length_take, toList, List.length_take]; have := h.1; have := h.2; omega
  have h1 : r.toList[i]? = some (value.read v.items_) := by
    rw [hl, List.getElem?_append_right (by omega), hlen]
    simp
  rw [toList, List.getElem?_take, if_pos (by omega)] at h1
  exact h1

/-- C3 fails on the code when `value` refers to an element that the shift
moves.  With `v = {1, 2, 3}` and capacity 5, `v.Insert(v.begin(), v[2])` is
asked to insert 3 and returns offset 0, but the shift branch reads `value`
after `std::copy_backward`, when slot 2 holds 2: the logical elements become
`[2, 1, 2, 3]` and not `[3, 1, 2, 3]`.  The reallocate branch, taken by the
full vector `{1, 2, 3}`, inserts 3 for the same call, and so does every branch
for a value that lives outside the block. -/
theorem Insert_aliased_value_lost :
    ((ofInit [1, 2, 3] : SimpleVector Nat).Reserve 5).WF ∧
    ((ofInit [1, 2, 3] : SimpleVector Nat).Reserve 5).toList = [1, 2, 3] ∧
    (ConstRef.slot 2).read ((ofInit [1, 2, 3] : SimpleVector Nat).Reserve 5).items_ = 3 ∧
    (((ofInit [1, 2, 3] : SimpleVector Nat).Reserve 5).Insert 0 (ConstRef.slot 2)).map
        (fun r => (r.1.toList, r.1.size_, r.2)) = some ([2, 1, 2, 3], 4, 0) ∧
    (((ofInit [1, 2, 3] : SimpleVector Nat).Reserve 5).Insert 0 (ConstRef.slot 2)).map
        (fun r => r.1.toList) ≠ some ([] ++ 3 :: [1, 2, 3]) ∧
    ((ofInit [1, 2, 3] : SimpleVector Nat).Insert 0 (ConstRef.slot 2)).map
        (fun r => r.1.toList) = some [3, 1, 2, 3] ∧
    (((ofInit [1, 2, 3] : SimpleVector Nat).Reserve 5).Insert 0 (ConstRef.outside 3)).map
        (fun r => r.1.toList) = some [3, 1, 2, 3] ∧
    ((ofInit [1, 2, 3] : SimpleVector Nat).Insert 1 (ConstRef.outside 99)).map
        (fun r => (r.1.toList, r.1.size_, r.2)) = some ([1, 99, 2, 3], 4, 1) := by
  decide

/-- C4: `Insert` at a position strictly before `end()` leaves the capacity
unchanged when `size < capacity` held before the call and makes it exactly
twice the old capacity when `size == capacity` held. -/
theorem Insert_capacity [Inhabited T] (v : SimpleVector T) (i : Nat) (x : ConstRef T)
    (hi : i < v.size_) :
    ∃ r : SimpleVector T × Nat, v.Insert i x = some r ∧
      (v.size_ < v.capacity_ → r.1.capacity_ = v.capacity_) ∧
      (v.size_ = v.capacity_ → r.1.capacity_ = 2 * v.capacity_) := by
  by_cases hc : v.size_ < v.capacity_
  · exact ⟨_, Insert_shift v i x hi hc, fun _ => rfl, fun e => by omega⟩
  · exact ⟨_, Insert_realloc v i x hi hc, fun c => absurd c hc, fun _ => rfl⟩

theorem Insert_capacity_witness :
    1 < (ofInit [1, 2, 3] : SimpleVector Nat).size_ ∧
    (∃ r : SimpleVector Nat × Nat,
      (ofInit [1, 2, 3] : SimpleVector Nat).Insert 1 (ConstRef.outside 99) = some r ∧
      ((ofInit [1, 2, 3] : SimpleVector Nat).size_ < (ofInit [1, 2, 3] : SimpleVector Nat).capacity_ →
        r.1.capacity_ = (ofInit [1, 2, 3] : SimpleVector Nat).capacity_) ∧
      ((ofInit [1, 2, 3] : SimpleVector Nat).size_ = (ofInit [1, 2, 3] : SimpleVector Nat).capacity_ →
        r.1.capacity_ = 2 * (ofInit [1, 2, 3] : SimpleVector Nat).capacity_)) :=
  ⟨by decide, Insert_capacity (ofInit [1, 2, 3]) 1 (ConstRef.outside 99) (by decide)⟩

/-- C5: `Insert` on the vector of capacity 0 (at `begin() == end()`) goes
through `PushBack`, which reserves 10 slots: the capacity afterwards is 10, and
so it is not the 1 that the comment above `Insert` asks for. -/
theorem Insert_capacity_zero_gives_ten [Inhabited T] (x : ConstRef T) :
    (empty : SimpleVector T).capacity_ = 0 ∧
    ((empty : SimpleVector T).Insert 0 x).map (fun r => r.1.capacity_) = some 10 ∧
    ((empty : SimpleVector T).Insert 0 x).map (fun r => r.1.capacity_) ≠ some 1 := by
  have e : ((empty : SimpleVector T).Insert 0 x).map (fun r => r.1.capacity_) = some 10 := by
    have h := Insert_end (empty : SimpleVector T) x
    have hw : (empty : SimpleVector T).WF := ⟨rfl, Nat.le_refl _⟩
    have hz : (empty : SimpleVector T).size_ = 0 := rfl
    rw [hz] at h
    rw [h, Option.map_some', PushBack_capacity_zero _ _ hw rfl]
  refine ⟨rfl, e, ?_⟩
  rw [e]
  decide

/-- C6: on every vector and for every argument, also one that refers to a slot
of the vector, `Insert(end(), x)` succeeds and leaves exactly the vector that
`PushBack(x)` leaves (same logical elements, same size, same capacity), and it
returns the offset of the last element, the old size. -/
theorem Insert_end_eq_PushBack [Inhabited T] (v : SimpleVector T) (x : ConstRef T) :
    ∃ r : SimpleVector T × Nat, v.Insert v.size_ x = some r ∧
      r.1 = v.PushBack (x.read v.items_) ∧
      r.1.toList = (v.PushBack (x.read v.items_)).toList ∧
      r.1.size_ = (v.PushBack (x.read v.items_)).size_ ∧
      r.1.capacity_ = (v.PushBack (x.read v.items_)).capacity_ ∧
      r.2 = v.size_ ∧ r.2 + 1 = r.1.size_ :=
  ⟨(v.PushBack (x.read v.items_), v.size_), Insert_end v x, rfl, rfl, rfl, rfl, rfl,
    (PushBack_size v _).symm⟩

/-- C7: on every valid vector with `size < capacity`, for every `i ≤ size` and
every `x`, `Insert(begin + i, x)` succeeds and `Erase` at the position it
returns succeeds and gives back the original logical elements and the original
size (and the capacity never changed). -/
theorem Erase_Insert [Inhabited T] (v : SimpleVector T) (i : Nat) (x : ConstRef T) (h : v.WF)
    (hc : v.size_ < v.capacity_) (hi : i ≤ v.size_) :
    ∃ r r' : SimpleVector T × Nat, v.Insert i x = some r ∧ r.1.Erase r.2 = some r' ∧
      r'.1.toList = v.toList ∧ r'.1.size_ = v.size_ ∧ r'.1.capacity_ = v.capacity_ := by
  have hlen : v.toList.length = v.size_ := by
    rw [toList, List.length_take]; have := h.1; have := h.2; omega
  obtain ⟨r, y, hr, hw, hs, hl, _⟩ := Insert_spec v i x h hi
  obtain ⟨r', hr', _, hs', hc', hl'⟩ := Erase_spec r i hw (by omega)
  refine ⟨(r, i), (r', i), hr, hr', ?_, ?_, ?_⟩
  · show r'.toList = v.toList
    rw [hl', hl, eraseIdx_take_cons_drop _ _ _ (by omega)]
  · show r'.size_ = v.size_
    omega
  · show r'.capacity_ = v.capacity_
    rw [hc']
    by_cases he : i = v.size_
    · subst he
      have e := Insert_end v x
      rw [hr] at e
      have e1 : r = v.PushBack (x.read v.items_) := congrArg Prod.fst (Option.some.inj e)
      rw [e1, PushBack_capacity_lt v _ hc]
    · have e := Insert_shift v i x (by omega) hc
      rw [hr] at e
      have e1 : r = { v with items_ := insertShifted v i x, size_ := v.size_ + 1 } :=
        congrArg Prod.fst (Option.some.inj e)
      rw [e1]

theorem Erase_Insert_witness :
    ((ofInit [1, 2, 3] : SimpleVector Nat).Reserve 5).WF ∧
    ((ofInit [1, 2, 3] : SimpleVector Nat).Reserve 5).size_ <
      ((ofInit [1, 2, 3] : SimpleVector Nat).Reserve 5).capacity_ ∧
    1 ≤ ((ofInit [1, 2, 3] : SimpleVector Nat).Reserve 5).size_ ∧
    (∃ r r' : SimpleVector Nat × Nat,
      ((ofInit [1, 2, 3] : SimpleVector Nat).Reserve 5).Insert 1 (ConstRef.slot 2) = some r ∧
      r.1.Erase r.2 = some r' ∧ r'.1.toList = [1, 2, 3] ∧ r'.1.size_ = 3 ∧
      r'.1.capacity_ = 5) :=
  ⟨by decide, by decide, by decide,
    Erase_Insert ((ofInit [1, 2, 3]).Reserve 5) 1 (ConstRef.slot 2) (by decide) (by decide)
      (by decide)⟩

/-- C8: `Erase(begin + i)` with `i < size` on any valid vector succeeds, leaves
the old elements without the one at index `i` and with the others in their old
order, lowers the size by exactly 1, keeps the capacity, and returns offset
`i`, which holds the element that followed the removed one, or is `end()` when
the removed element was the last. -/
theorem Erase_contract [Inhabited T] (v : SimpleVector T) (i : Nat) (h : v.WF)
    (hi : i < v.size_) :
    ∃ r : SimpleVector T × Nat, v.Erase i = some r ∧
      r.1.toList = v.toList.eraseIdx i ∧
      r.1.size_ + 1 = v.size_ ∧
      r.1.capacity_ = v.capacity_ ∧
      r.2 = i ∧
      (i + 1 < v.size_ → r.1.toList[r.2]? = v.toList[i + 1]?) ∧
      (i + 1 = v.size_ → r.2 = r.1.size_) := by
  obtain ⟨r, hr, _, hs, hc, hl⟩ := Erase_spec v i h hi
  refine ⟨(r, i), hr, hl, ?_, hc, rfl, ?_, ?_⟩
  · show r.size_ + 1 = v.size_
    omega
  · intro _
    show r.toList[i]? = _
    rw [hl, List.getElem?_eraseIdx, if_neg (by omega)]
  · intro e
    show i = r.size_
    omega

theorem Erase_contract_witness :
    (⟨[1, 99, 2, 3], 4, 4⟩ : SimpleVector Nat).WF ∧
    1 < (⟨[1, 99, 2, 3], 4, 4⟩ : SimpleVector Nat).size_ ∧
    (∃ r : SimpleVector Nat × Nat, (⟨[1, 99, 2, 3], 4, 4⟩ : SimpleVector Nat).Erase 1 = some r ∧
      r.1.toList = [1, 2, 3] ∧ r.1.size_ + 1 = 4 ∧ r.1.capacity_ = 4 ∧ r.2 = 1 ∧
      (1 + 1 < 4 → r.1.toList[r.2]? = some 2) ∧
      (1 + 1 = 4 → r.2 = r.1.size_)) :=
  ⟨by decide, by decide, Erase_contract ⟨[1, 99, 2, 3], 4, 4⟩ 1 (by decide) (by decide)⟩

/-- C9: `Reserve(c)` on any valid vector: with `c ≤ capacity` the vector is
unchanged (size, capacity and logical elements); with `c > capacity` the
capacity becomes exactly `c`, the size is unchanged and every logical element
is unchanged, index by index and in order. -/
theorem Reserve_contract [Inhabited T] (v : SimpleVector T) (c : Nat) (h : v.WF) :
    (c ≤ v.capacity_ →
      (v.Reserve c).size_ = v.size_ ∧ (v.Reserve c).capacity_ = v.capacity_ ∧
      (v.Reserve c).toList = v.toList ∧ v.Reserve c = v) ∧
    (v.capacity_ < c →
      (v.Reserve c).capacity_ = c ∧ (v.Reserve c).size_ = v.size_ ∧
      (v.Reserve c).toList = v.toList ∧
      ∀ j, j < v.size_ → (v.Reserve c).items_[j]? = v.items_[j]?) := by
  refine ⟨fun hle => ?_, fun hgt => ?_⟩
  · rw [Reserve_le v c hle]
    exact ⟨rfl, rfl, rfl, rfl⟩
  · exact ⟨Reserve_capacity_gt v c hgt, Reserve_size v c, Reserve_toList v c h,
      fun j hj => Reserve_items_getElem? v c j h hj⟩

theorem Reserve_contract_witness :
    (ofInit [1, 2, 3] : SimpleVector Nat).WF ∧
    ((5 ≤ 3 →
      ((ofInit [1, 2, 3] : SimpleVector Nat).Reserve 5).size_ = 3 ∧
      ((ofInit [1, 2, 3] : SimpleVector Nat).Reserve 5).capacity_ = 3 ∧
      ((ofInit [1, 2, 3] : SimpleVector Nat).Reserve 5).toList = [1, 2, 3] ∧
      (ofInit [1, 2, 3] : SimpleVector Nat).Reserve 5 = ofInit [1, 2, 3]) ∧
    (3 < 5 →
      ((ofInit [1, 2, 3] : SimpleVector Nat).Reserve 5).capacity_ = 5 ∧
      ((ofInit [1, 2, 3] : SimpleVector Nat).Reserve 5).size_ = 3 ∧
      ((ofInit [1, 2, 3] : SimpleVector Nat).Reserve 5).toList = [1, 2, 3] ∧
      ∀ j, j < 3 → ((ofInit [1, 2, 3] : SimpleVector Nat).Reserve 5).items_[j]? =
        (ofInit [1, 2, 3] : SimpleVector Nat).items_[j]?)) :=
  ⟨by decide, Reserve_contract (ofInit [1, 2, 3]) 5 (by decide)⟩

/-- C10: `Resize(n)` on any valid vector, whatever the slots beyond the size
hold: the size becomes `n`; the first `min n size` logical elements are
unchanged; every element at an index in `[old size, n)` is the default value;
and the capacity becomes `max capacity n`, that is unchanged when
`n ≤ capacity` and exactly `n` when `n > capacity`. -/
theorem Resize_contract [Inhabited T] (v : SimpleVector T) (n : Nat) (h : v.WF) :
    (v.Resize n).size_ = n ∧
    (∀ j, j < min n v.size_ → (v.Resize n).toList[j]? = v.toList[j]?) ∧
    (∀ j, v.size_ ≤ j → j < n → (v.Resize n).toList[j]? = some default) ∧
    (v.Resize n).capacity_ = max v.capacity_ n ∧
    (n ≤ v.capacity_ → (v.Resize n).capacity_ = v.capacity_) ∧
    (v.capacity_ < n → (v.Resize n).capacity_ = n) := by
  have hcap := Resize_capacity v n h
  refine ⟨Resize_size v n, ?_, ?_, hcap, ?_, ?_⟩
  · intro j hj
    rw [toList, toList, Resize_size, List.getElem?_take, List.getElem?_take,
      if_pos (by omega), if_pos (by omega), Resize_items_old v n j h (by omega)]
  · intro j hj1 hj2
    rw [toList, Resize_size, List.getElem?_take, if_pos hj2, Resize_items_new v n j h hj1 hj2]
  · intro hle
    omega
  · intro hgt
    omega

theorem Resize_contract_witness :
    ((ofInit [1, 2, 3] : SimpleVector Nat).Resize 1).WF ∧
    ((ofInit [1, 2, 3] : SimpleVector Nat).Resize 1).items_ = [1, 2, 3] ∧
    ((((ofInit [1, 2, 3] : SimpleVector Nat).Resize 1).Resize 3).size_ = 3 ∧
      (∀ j, j < min 3 1 → (((ofInit [1, 2, 3] : SimpleVector Nat).Resize 1).Resize 3).toList[j]? =
        [1][j]?) ∧
      (∀ j, 1 ≤ j → j < 3 →
        (((ofInit [1, 2, 3] : SimpleVector Nat).Resize 1).Resize 3).toList[j]? = some 0) ∧
      (((ofInit [1, 2, 3] : SimpleVector Nat).Resize 1).Resize 3).capacity_ = max 3 3 ∧
      (3 ≤ 3 → (((ofInit [1, 2, 3] : SimpleVector Nat).Resize 1).Resize 3).capacity_ = 3) ∧
      (3 < 3 → (((ofInit [1, 2, 3] : SimpleVector Nat).Resize 1).Resize 3).capacity_ = 3)) :=
  ⟨by decide, by decide, Resize_contract ((ofInit [1, 2, 3]).Resize 1) 3 (by decide)⟩

end SimpleVector

/-! ## Checked access, moves, and the bounded array -/

namespace SimpleVector

open SimpleVec

variable {T : Type}

theorem toList_getElem? (v : SimpleVector T) (j : Nat) (hj : j < v.size_) :
    v.toList[j]? = v.items_[j]? := by
  rw [toList, List.getElem?_take, if_pos hj]

theorem items_getElem?_getD [Inhabited T] (v : SimpleVector T) (j : Nat) (h : v.WF)
    (hj : j < v.size_) : v.items_[j]? = some (v.items_.getD j default) := by
  have hlen : j < v.items_.length := by have := h.1; have := h.2; omega
  rw [List.getD_eq_getElem?_getD, List.getElem?_eq_getElem hlen]
  rfl

theorem moveConstruct_eq (other : SimpleVector T) :
    moveConstruct other = (other, empty) := rfl

theorem moveAssign_self (mem : Nat → SimpleVector T) (a : Nat) :
    moveAssign mem a a = mem := by
  unfold moveAssign
  rw [if_pos rfl]

theorem moveAssign_receiver (mem : Nat → SimpleVector T) (a b : Nat) (h : a ≠ b) :
    moveAssign mem a b a = mem b := by
  unfold moveAssign
  rw [if_neg h]
  show (if a = a then (swap (mem a) (moveConstruct (mem b)).1).1 else _) = _
  rw [if_pos rfl]
  rfl

theorem moveAssign_source (mem : Nat → SimpleVector T) (a b : Nat) (h : a ≠ b) :
    moveAssign mem a b b = empty := by
  unfold moveAssign
  rw [if_neg h]
  show (if b = a then _ else if b = b then (moveConstruct (mem b)).2 else _) = _
  rw [if_neg (Ne.symm h), if_pos rfl]
  rfl

theorem moveAssign_other (mem : Nat → SimpleVector T) (a b p : Nat) (h : a ≠ b)
    (hpa : p ≠ a) (hpb : p ≠ b) : moveAssign mem a b p = mem p := by
  unfold moveAssign
  rw [if_neg h]
  show (if p = a then _ else if p = b then _ else mem p) = _
  rw [if_neg hpa, if_neg hpb]

theorem empty_WF : (empty : SimpleVector T).WF := ⟨rfl, Nat.le_refl _⟩

/-- C11: `At(index)` on any valid vector throws `out_of_range` exactly when
`index ≥ size` (so also for an index below the capacity), otherwise returns the
logical element at that index, the one `operator[]` returns; and the vector is
the same after the call in both cases. -/
theorem At_contract [Inhabited T] (v : SimpleVector T) (index : Nat) (h : v.WF) :
    ((v.At index).1 = Except.error StdExcept.out_of_range ↔ v.size_ ≤ index) ∧
    (index < v.size_ →
      ∃ x, (v.At index).1 = Except.ok x ∧ v.toList[index]? = some x ∧
        v.opIndex index = some x) ∧
    (v.At index).2 = v := by
  by_cases hge : index ≥ v.size_
  · have e : v.At index = (Except.error StdExcept.out_of_range, v) := by
      unfold At; rw [if_pos hge]
    rw [e]
    refine ⟨⟨fun _ => hge, fun _ => rfl⟩, fun hlt => by omega, rfl⟩
  · have hlt : index < v.size_ := by omega
    have e : v.At index = (Except.ok (v.items_.getD index default), v) := by
      unfold At; rw [if_neg hge]
    rw [e]
    refine ⟨⟨fun hc => ?_, fun hc => by omega⟩, fun _ => ?_, rfl⟩
    · cases hc
    · refine ⟨_, rfl, ?_, ?_⟩
      · rw [toList_getElem? v index hlt, items_getElem?_getD v index h hlt]
      · unfold opIndex
        rw [if_neg (by omega)]

theorem At_contract_witness :
    ((ofInit [1, 2, 3] : SimpleVector Nat).Resize 1).WF ∧
    ((((ofInit [1, 2, 3] : SimpleVector Nat).Resize 1).At 2).1 =
        Except.error StdExcept.out_of_range ↔
      ((ofInit [1, 2, 3] : SimpleVector Nat).Resize 1).size_ ≤ 2) ∧
    2 < ((ofInit [1, 2, 3] : SimpleVector Nat).Resize 1).capacity_ :=
  ⟨by decide, (At_contract ((ofInit [1, 2, 3]).Resize 1) 2 (by decide)).1, by decide⟩

/-- C13: move construction leaves the new object with exactly the source's
prior logical elements, size and capacity, and move assignment from a distinct
source does the same for the receiver, whatever the receiver held; in both the
source is left valid, with `size ≤ capacity`. -/
theorem move_contract (source : SimpleVector T) (mem : Nat → SimpleVector T) (a b : Nat)
    (h : a ≠ b) :
    ((moveConstruct source).1.toList = source.toList ∧
      (moveConstruct source).1.size_ = source.size_ ∧
      (moveConstruct source).1.capacity_ = source.capacity_ ∧
      (moveConstruct source).2.size_ ≤ (moveConstruct source).2.capacity_ ∧
      (moveConstruct source).2.WF) ∧
    ((moveAssign mem a b a).toList = (mem b).toList ∧
      (moveAssign mem a b a).size_ = (mem b).size_ ∧
      (moveAssign mem a b a).capacity_ = (mem b).capacity_ ∧
      (moveAssign mem a b b).size_ ≤ (moveAssign mem a b b).capacity_ ∧
      (moveAssign mem a b b).WF) := by
  rw [moveConstruct_eq, moveAssign_receiver mem a b h, moveAssign_source mem a b h]
  exact ⟨⟨rfl, rfl, rfl, Nat.le_refl _, empty_WF⟩, ⟨rfl, rfl, rfl, Nat.le_refl _, empty_WF⟩⟩

theorem move_contract_witness :
    (0 : Nat) ≠ 1 ∧
    (moveAssign (fun p => if p = 0 then (ofInit [1, 2] : SimpleVector Nat) else ofInit [3]) 0 1
        0).toList = [3] ∧
    (moveConstruct (ofInit [1, 2, 3] : SimpleVector Nat)).1.toList = [1, 2, 3] :=
  ⟨by decide,
    (move_contract (ofInit [1, 2, 3])
      (fun p => if p = 0 then (ofInit [1, 2] : SimpleVector Nat) else ofInit [3]) 0 1
      (by decide)).2.1,
    (move_contract (ofInit [1, 2, 3])
      (fun p => if p = 0 then (ofInit [1, 2] : SimpleVector Nat) else ofInit [3]) 0 1
      (by decide)).1.1⟩

/-- C14, as stated, fails: after `a = std::move(b)` with `a = [1, 2]` and
`b = [3]` the receiver holds `[3]`, but the source does not hold `[1, 2]`: it
has size 0 and capacity 0. -/
theorem moveAssign_is_not_an_exchange :
    ¬ (moveAssign (fun p => if p = 0 then (ofInit [1, 2] : SimpleVector Nat) else ofInit [3]) 0 1
          0 = (ofInit [3] : SimpleVector Nat) ∧
        (moveAssign (fun p => if p = 0 then (ofInit [1, 2] : SimpleVector Nat) else ofInit [3]) 0 1
          1).items_ = (ofInit [1, 2] : SimpleVector Nat).items_ ∧
        (moveAssign (fun p => if p = 0 then (ofInit [1, 2] : SimpleVector Nat) else ofInit [3]) 0 1
          1).size_ = (ofInit [1, 2] : SimpleVector Nat).size_ ∧
        (moveAssign (fun p => if p = 0 then (ofInit [1, 2] : SimpleVector Nat) else ofInit [3]) 0 1
          1).capacity_ = (ofInit [1, 2] : SimpleVector Nat).capacity_) := by
  decide

/-- C14, amended: after `a = std::move(b)` for distinct `a` and `b` the
receiver holds `b`'s prior storage contents, size and capacity, the source is
in the default-constructed state (no storage, size 0, capacity 0), and every
other object is untouched; self-move-assignment leaves the memory as it was. -/
theorem moveAssign_contract (mem : Nat → SimpleVector T) (a b : Nat) (h : a ≠ b) :
    ((moveAssign mem a b a).items_ = (mem b).items_ ∧
      (moveAssign mem a b a).size_ = (mem b).size_ ∧
      (moveAssign mem a b a).capacity_ = (mem b).capacity_) ∧
    ((moveAssign mem a b b).items_ = [] ∧
      (moveAssign mem a b b).size_ = 0 ∧
      (moveAssign mem a b b).capacity_ = 0) ∧
    (∀ p, p ≠ a → p ≠ b → moveAssign mem a b p = mem p) ∧
    moveAssign mem a a = mem := by
  rw [moveAssign_receiver mem a b h, moveAssign_source mem a b h]
  exact ⟨⟨rfl, rfl, rfl⟩, ⟨rfl, rfl, rfl⟩,
    fun p hpa hpb => moveAssign_other mem a b p h hpa hpb, moveAssign_self mem a⟩

theorem moveAssign_contract_witness :
    (0 : Nat) ≠ 1 ∧
    (moveAssign (fun p => if p = 0 then (ofInit [1, 2] : SimpleVector Nat) else ofInit [3]) 0 1
        0).size_ = (ofInit [3] : SimpleVector Nat).size_ ∧
    (moveAssign (fun p => if p = 0 then (ofInit [1, 2] : SimpleVector Nat) else ofInit [3]) 0 1
        1).capacity_ = 0 :=
  ⟨by decide,
    (moveAssign_contract
      (fun p => if p = 0 then (ofInit [1, 2] : SimpleVector Nat) else ofInit [3]) 0 1
      (by decide)).1.2.1,
    (moveAssign_contract
      (fun p => if p = 0 then (ofInit [1, 2] : SimpleVector Nat) else ofInit [3]) 0 1
      (by decide)).2.1.2.2⟩

end SimpleVector

namespace StackVector

variable {T : Type} {N : Nat}

theorem StackVector_PushBack_full (s : StackVector T N) (value : T) (h : s.size_ = s.capacity_) :
    s.PushBack value = (Except.error StdExcept.overflow_error, s) := by
  unfold PushBack
  rw [if_pos h]

theorem StackVector_PushBack_room (s : StackVector T N) (value : T) (h : s.size_ ≠ s.capacity_) :
    s.PushBack value =
      (Except.ok (), { s with vector_ := s.vector_.set s.size_ value, size_ := s.size_ + 1 }) := by
  unfold PushBack
  rw [if_neg h]

theorem StackVector_PopBack_empty [Inhabited T] (s : StackVector T N) (h : s.size_ = 0) :
    s.PopBack = (Except.error StdExcept.underflow_error, s) := by
  unfold PopBack
  rw [if_pos h]

theorem StackVector_PopBack_nonempty [Inhabited T] (s : StackVector T N) (h : s.size_ ≠ 0) :
    s.PopBack =
      (Except.ok (s.vector_.getD (s.size_ - 1) default), { s with size_ := s.size_ - 1 }) := by
  unfold PopBack
  rw [if_neg h]

/-- C16: `StackVector::PushBack(value)` on any valid object throws
`overflow_error` exactly when `size == N`, and then leaves the object as it
was; otherwise it writes `value` at index old size, raises the size by exactly
1, leaves every other slot as it was, and keeps the capacity at `N`. -/
theorem StackVector_PushBack_contract (s : StackVector T N) (value : T) (h : s.WF) :
    ((s.PushBack value).1 = Except.error StdExcept.overflow_error ↔ s.size_ = N) ∧
    (s.size_ = N → (s.PushBack value).2 = s) ∧
    (s.size_ ≠ N →
      (s.PushBack value).1 = Except.ok () ∧
      (s.PushBack value).2.vector_[s.size_]? = some value ∧
      (s.PushBack value).2.size_ = s.size_ + 1 ∧
      (∀ j, j ≠ s.size_ → (s.PushBack value).2.vector_[j]? = s.vector_[j]?) ∧
      (s.PushBack value).2.capacity_ = N ∧
      (s.PushBack value).2.WF) := by
  obtain ⟨h1, h2, h3⟩ := h
  by_cases hf : s.size_ = N
  · rw [StackVector_PushBack_full s value (by omega)]
    exact ⟨⟨fun _ => hf, fun _ => rfl⟩, fun _ => rfl, fun hn => absurd hf hn⟩
  · rw [StackVector_PushBack_room s value (by omega)]
    refine ⟨⟨fun hc => ?_, fun hc => absurd hc hf⟩, fun hc => absurd hc hf, fun _ => ?_⟩
    · cases hc
    · refine ⟨rfl, ?_, rfl, ?_, h2, ?_⟩
      · show (s.vector_.set s.size_ value)[s.size_]? = some value
        rw [List.getElem?_set, if_pos rfl, if_pos (by omega)]
      · intro j hj
        show (s.vector_.set s.size_ value)[j]? = s.vector_[j]?
        rw [List.getElem?_set, if_neg (by omega)]
      · refine ⟨?_, h2, ?_⟩
        · show (s.vector_.set s.size_ value).length = N
          rw [List.length_set]; exact h1
        · show s.size_ + 1 ≤ N
          omega

theorem StackVector_PushBack_contract_witness :
    (⟨[1, 2, 0], 2, 3⟩ : StackVector Nat 3).WF ∧
    (((⟨[1, 2, 0], 2, 3⟩ : StackVector Nat 3).PushBack 7).1 =
        Except.error StdExcept.overflow_error ↔ 2 = 3) ∧
    (2 ≠ 3 → ((⟨[1, 2, 0], 2, 3⟩ : StackVector Nat 3).PushBack 7).2.size_ = 2 + 1) :=
  ⟨by decide,
    (StackVector_PushBack_contract (⟨[1, 2, 0], 2, 3⟩ : StackVector Nat 3) 7 (by decide)).1,
    fun hne =>
      ((StackVector_PushBack_contract (⟨[1, 2, 0], 2, 3⟩ : StackVector Nat 3) 7
        (by decide)).2.2 hne).2.2.1⟩

/-- C17: `StackVector::PopBack()` on any valid object throws `underflow_error`
exactly when `size == 0`, and then leaves the object as it was; otherwise it
returns the element that was at index `size - 1` and lowers the size by exactly
1; so `PopBack` directly after a successful `PushBack(value)` returns `value`
and restores the prior size. -/
theorem StackVector_PopBack_contract [Inhabited T] (s : StackVector T N) (value : T)
    (h : s.WF) :
    ((s.PopBack).1 = Except.error StdExcept.underflow_error ↔ s.size_ = 0) ∧
    (s.size_ = 0 → (s.PopBack).2 = s) ∧
    (s.size_ ≠ 0 →
      ∃ x, (s.PopBack).1 = Except.ok x ∧ s.vector_[s.size_ - 1]? = some x ∧
        (s.PopBack).2.size_ + 1 = s.size_ ∧ (s.PopBack).2.vector_ = s.vector_ ∧
        (s.PopBack).2.capacity_ = s.capacity_) ∧
    ((s.PushBack value).1 = Except.ok () →
      ((s.PushBack value).2.PopBack).1 = Except.ok value ∧
      ((s.PushBack value).2.PopBack).2.size_ = s.size_) := by
  obtain ⟨h1, h2, h3⟩ := h
  refine ⟨?_, ?_, ?_, ?_⟩
  · by_cases h0 : s.size_ = 0
    · rw [StackVector_PopBack_empty s h0]
      exact ⟨fun _ => h0, fun _ => rfl⟩
    · rw [StackVector_PopBack_nonempty s h0]
      exact ⟨fun hc => (by cases hc), fun hc => absurd hc h0⟩
  · intro h0
    rw [StackVector_PopBack_empty s h0]
  · intro h0
    rw [StackVector_PopBack_nonempty s h0]
    refine ⟨_, rfl, ?_, ?_, rfl, rfl⟩
    · have hlen : s.size_ - 1 < s.vector_.length := by omega
      rw [List.getD_eq_getElem?_getD, List.getElem?_eq_getElem hlen]
      rfl
    · show s.size_ - 1 + 1 = s.size_
      omega
  · intro hok
    have hroom : s.size_ ≠ s.capacity_ := by
      intro hfull
      rw [StackVector_PushBack_full s value hfull] at hok
      cases hok
    rw [StackVector_PushBack_room s value hroom]
    have hne : ({ s with vector_ := s.vector_.set s.size_ value, size_ := s.size_ + 1 } :
        StackVector T N).size_ ≠ 0 := by
      show s.size_ + 1 ≠ 0
      omega
    rw [StackVector_PopBack_nonempty _ hne]
    refine ⟨?_, ?_⟩
    · show Except.ok ((s.vector_.set s.size_ value).getD (s.size_ + 1 - 1) default) = _
      have hlen : s.size_ < s.vector_.length := by omega
      rw [Nat.add_sub_cancel, List.getD_eq_getElem?_getD, List.getElem?_set, if_pos rfl,
        if_pos hlen]
      rfl
    · show s.size_ + 1 - 1 = s.size_
      omega

theorem StackVector_PopBack_contract_witness :
    (⟨[1, 2, 0], 2, 3⟩ : StackVector Nat 3).WF ∧
    (((⟨[1, 2, 0], 2, 3⟩ : StackVector Nat 3).PopBack).1 =
        Except.error StdExcept.underflow_error ↔ 2 = 0) ∧
    (((⟨[1, 2, 0], 2, 3⟩ : StackVector Nat 3).PushBack 7).1 = Except.ok () →
      ((((⟨[1, 2, 0], 2, 3⟩ : StackVector Nat 3).PushBack 7).2.PopBack).1 = Except.ok 7 ∧
      (((⟨[1, 2, 0], 2, 3⟩ : StackVector Nat 3).PushBack 7).2.PopBack).2.size_ = 2)) :=
  ⟨by decide,
    (StackVector_PopBack_contract (⟨[1, 2, 0], 2, 3⟩ : StackVector Nat 3) 7 (by decide)).1,
    (StackVector_PopBack_contract (⟨[1, 2, 0], 2, 3⟩ : StackVector Nat 3) 7 (by decide)).2.2.2⟩

/-- C18: `StackVector::operator[](index)` on any valid object throws
`out_of_range` exactly when `index ≥ N`; every index with `size ≤ index < N`
succeeds and returns the slot at that index, because the bound is the fixed
capacity `N` and not the logical size. -/
theorem StackVector_opIndex_contract [Inhabited T] (s : StackVector T N) (index : Nat)
    (h : s.WF) :
    ((s.opIndex index).1 = Except.error StdExcept.out_of_range ↔ N ≤ index) ∧
    (index < N → ∃ x, (s.opIndex index).1 = Except.ok x ∧ s.vector_[index]? = some x) ∧
    (s.size_ ≤ index → index < N →
      ∃ x, (s.opIndex index).1 = Except.ok x ∧ s.vector_[index]? = some x) ∧
    (s.opIndex index).2 = s := by
  obtain ⟨h1, h2, h3⟩ := h
  have key : index < N →
      ∃ x, (s.opIndex index).1 = Except.ok x ∧ s.vector_[index]? = some x := by
    intro hlt
    have e : s.opIndex index = (Except.ok (s.vector_.getD index default), s) := by
      unfold opIndex; rw [if_neg (by omega)]
    have hlen : index < s.vector_.length := by omega
    rw [e]
    refine ⟨_, rfl, ?_⟩
    rw [List.getD_eq_getElem?_getD, List.getElem?_eq_getElem hlen]
    rfl
  refine ⟨?_, key, fun _ hlt => key hlt, ?_⟩
  · by_cases hge : index ≥ N
    · have e : s.opIndex index = (Except.error StdExcept.out_of_range, s) := by
        unfold opIndex; rw [if_pos hge]
      rw [e]
      exact ⟨fun _ => hge, fun _ => rfl⟩
    · have e : s.opIndex index = (Except.ok (s.vector_.getD index default), s) := by
        unfold opIndex; rw [if_neg hge]
      rw [e]
      exact ⟨fun hc => (by cases hc), fun hc => absurd hc hge⟩
  · unfold opIndex
    split <;> rfl

theorem StackVector_opIndex_contract_witness :
    (⟨[1, 2, 5], 1, 3⟩ : StackVector Nat 3).WF ∧
    ((1 : Nat) ≤ 2 → 2 < 3 →
      ∃ x, ((⟨[1, 2, 5], 1, 3⟩ : StackVector Nat 3).opIndex 2).1 = Except.ok x ∧
        [1, 2, 5][2]? = some x) :=
  ⟨by decide,
    (StackVector_opIndex_contract (⟨[1, 2, 5], 1, 3⟩ : StackVector Nat 3) 2 (by decide)).2.2.1⟩

end StackVector

/-! ## Copies, reserved capacity and comparison -/

namespace SimpleVec

variable {T : Type}

theorem lexicographical_compare_self (less : T → T → Bool) (hirr : ∀ a, less a a = false)
    (l : List T) : lexicographical_compare less l l = false := by
  induction l with
  | nil => rfl
  | cons a l ih => simp [lexicographical_compare, hirr, ih]

theorem eq_of_lexicographical_compare_false (less : T → T → Bool)
    (htri : ∀ a b, less a b = false → less b a = false → a = b) :
    ∀ l₁ l₂ : List T, lexicographical_compare less l₁ l₂ = false →
      lexicographical_compare less l₂ l₁ = false → l₁ = l₂
  | [], [], _, _ => rfl
  | [], _ :: _, h, _ => by simp [lexicographical_compare] at h
  | _ :: _, [], _, h => by simp [lexicographical_compare] at h
  | x :: xs, y :: ys, h1, h2 => by
    cases hxy : less x y with
    | true => simp [lexicographical_compare, hxy] at h1
    | false =>
      cases hyx : less y x with
      | true => simp [lexicographical_compare, hyx] at h2
      | false =>
        simp only [lexicographical_compare, hxy, hyx, Bool.false_eq_true, if_false] at h1 h2
        rw [htri x y hxy hyx, eq_of_lexicographical_compare_false less htri xs ys h1 h2]

theorem lexicographical_compare_asymm (less : T → T → Bool)
    (hasymm : ∀ a b, less a b = true → less b a = false) :
    ∀ l₁ l₂ : List T, lexicographical_compare less l₁ l₂ = true →
      lexicographical_compare less l₂ l₁ = false
  | [], [], h => by simp [lexicographical_compare] at h
  | [], _ :: _, _ => by simp [lexicographical_compare]
  | _ :: _, [], h => by simp [lexicographical_compare] at h
  | x :: xs, y :: ys, h => by
    cases hxy : less x y with
    | true => simp [lexicographical_compare, hxy, hasymm x y hxy]
    | false =>
      cases hyx : less y x with
      | true => simp [lexicographical_compare, hxy, hyx] at h
      | false =>
        simp only [lexicographical_compare, hxy, hyx, Bool.false_eq_true, if_false] at h ⊢
        exact lexicographical_compare_asymm less hasymm xs ys h

theorem StrictTotal.asymm {less : T → T → Bool} (h : StrictTotal less) (a b : T)
    (hab : less a b = true) : less b a = false := by
  cases hba : less b a with
  | false => rfl
  | true =>
    have := h.2.1 a b a hab hba
    rw [h.1 a] at this
    cases this

end SimpleVec

namespace SimpleVector

open SimpleVec

variable {T : Type}

theorem length_toList (v : SimpleVector T) (h : v.WF) : v.toList.length = v.size_ := by
  rw [toList, List.length_take]
  have := h.1
  have := h.2
  omega

theorem toList_eq_iff (a b : SimpleVector T) (ha : a.WF) (hb : b.WF) :
    a.toList = b.toList ↔
      a.size_ = b.size_ ∧ ∀ i, i < a.size_ → a.items_[i]? = b.items_[i]? := by
  constructor
  · intro e
    have hs : a.size_ = b.size_ := by
      rw [← length_toList a ha, ← length_toList b hb, e]
    refine ⟨hs, fun i hi => ?_⟩
    rw [← toList_getElem? a i hi, ← toList_getElem? b i (by omega), e]
  · rintro ⟨hs, hp⟩
    apply List.ext_getElem?
    intro j
    rw [toList, toList, List.getElem?_take, List.getElem?_take, ← hs]
    by_cases hj : j < a.size_
    · rw [if_pos hj, if_pos hj, hp j hj]
    · rw [if_neg hj, if_neg hj]

theorem opEq_iff_toList (less : T → T → Bool) (hl : StrictTotal less) (a b : SimpleVector T) :
    opEq less a b = true ↔ a.toList = b.toList := by
  have hdef : opEq less a b = true ↔
      (lexicographical_compare less a.toList b.toList = false ∧
        lexicographical_compare less b.toList a.toList = false) := by
    simp [opEq, opGe, opLe, opGt, opLt]
  rw [hdef]
  constructor
  · rintro ⟨h1, h2⟩
    exact eq_of_lexicographical_compare_false less hl.2.2 _ _ h1 h2
  · intro e
    rw [e]
    exact ⟨lexicographical_compare_self less hl.1 _, lexicographical_compare_self less hl.1 _⟩

theorem copyConstruct_eq [Inhabited T] (other : SimpleVector T) :
    copyConstruct other =
      some ({ items_ := stdCopy other.items_ 0 other.size_ (ArrayPtr other.capacity_) 0,
              size_ := other.size_, capacity_ := other.capacity_ }, other) := rfl

theorem copied_block_take [Inhabited T] (v : SimpleVector T) (h : v.WF) :
    (stdCopy v.items_ 0 v.size_ (ArrayPtr v.capacity_) 0).take v.size_ = v.toList := by
  obtain ⟨h1, h2⟩ := h
  apply List.ext_getElem?
  intro j
  rw [toList, List.getElem?_take, List.getElem?_take]
  by_cases hj : j < v.size_
  · rw [if_pos hj, if_pos hj, stdCopy,
      getElem?_copyLoop _ _ _ _ _ _ (by omega) (by simp [ArrayPtr]; omega), if_pos (by omega)]
    congr 1
    omega
  · rw [if_neg hj, if_neg hj]

theorem pushAll_within [Inhabited T] (v : SimpleVector T) (xs : List T) (h : v.WF)
    (hfit : v.size_ + xs.length ≤ v.capacity_) :
    (pushAll v xs).capacity_ = v.capacity_ ∧ (pushAll v xs).toList = v.toList ++ xs := by
  induction xs generalizing v with
  | nil => exact ⟨rfl, (List.append_nil _).symm⟩
  | cons x xs ih =>
    rw [List.length_cons] at hfit
    have hlt : v.size_ < v.capacity_ := by omega
    have hc := PushBack_capacity_lt v x hlt
    have hs := PushBack_size v x
    obtain ⟨i1, i2⟩ := ih (v.PushBack x) (PushBack_WF v x h) (by omega)
    rw [pushAll_cons]
    refine ⟨by rw [i1, hc], ?_⟩
    rw [i2, PushBack_toList v x h, List.append_assoc]
    rfl

/-- C12: copy construction from any valid source, over an element type whose
`<` is a strict total order, succeeds and gives a copy with the source's size,
capacity and logical elements in the same order; the source is unchanged; and
`copy == source` is true. -/
theorem copyConstruct_contract [Inhabited T] (less : T → T → Bool) (hl : StrictTotal less)
    (source : SimpleVector T) (h : source.WF) :
    ∃ r : SimpleVector T × SimpleVector T, copyConstruct source = some r ∧
      r.1.size_ = source.size_ ∧
      r.1.capacity_ = source.capacity_ ∧
      r.1.toList = source.toList ∧
      r.2 = source ∧
      opEq less r.1 source = true := by
  refine ⟨_, copyConstruct_eq source, rfl, rfl, copied_block_take source h, rfl, ?_⟩
  exact (opEq_iff_toList less hl _ _).2 (copied_block_take source h)

theorem copyConstruct_contract_witness :
    StrictTotal (fun x y : Nat => decide (x < y)) ∧
    ((ofInit [1, 2, 3] : SimpleVector Nat).Reserve 5).WF ∧
    (∃ r : SimpleVector Nat × SimpleVector Nat,
      copyConstruct ((ofInit [1, 2, 3] : SimpleVector Nat).Reserve 5) = some r ∧
      r.1.size_ = 3 ∧ r.1.capacity_ = 5 ∧ r.1.toList = [1, 2, 3] ∧
      r.2 = (ofInit [1, 2, 3] : SimpleVector Nat).Reserve 5 ∧
      opEq (fun x y : Nat => decide (x < y)) r.1
        ((ofInit [1, 2, 3] : SimpleVector Nat).Reserve 5) = true) :=
  ⟨⟨fun a => by simp, fun a b c => by simp; omega, fun a b => by simp; omega⟩,
    by decide,
    copyConstruct_contract (fun x y : Nat => decide (x < y))
      ⟨fun a => by simp, fun a b c => by simp; omega, fun a b => by simp; omega⟩
      ((ofInit [1, 2, 3]).Reserve 5) (by decide)⟩

end SimpleVector

/-- C15: the vector constructed from `Reserve(h)` has size 0 and capacity `h`,
and appending any `k ≤ h` values to it with `PushBack` leaves the capacity at
`h` (no reallocation) and makes the logical elements exactly those values in
order. -/
theorem ReserveProxyObj_contract {T : Type} [Inhabited T] (h : Nat) (xs : List T)
    (hk : xs.length ≤ h) :
    (SimpleVector.ofReserve (Reserve h) : SimpleVector T).size_ = 0 ∧
    (SimpleVector.ofReserve (Reserve h) : SimpleVector T).capacity_ = h ∧
    (SimpleVector.pushAll (SimpleVector.ofReserve (Reserve h)) xs).capacity_ = h ∧
    (SimpleVector.pushAll (SimpleVector.ofReserve (Reserve h)) xs).toList = xs ∧
    (SimpleVector.pushAll (SimpleVector.ofReserve (Reserve h)) xs).size_ = xs.length := by
  have hw : (SimpleVector.ofReserve (Reserve h) : SimpleVector T).WF :=
    ⟨by simp [SimpleVector.ofReserve, SimpleVec.ArrayPtr], Nat.zero_le _⟩
  have hfit : (SimpleVector.ofReserve (Reserve h) : SimpleVector T).size_ + xs.length ≤
      (SimpleVector.ofReserve (Reserve h) : SimpleVector T).capacity_ := by
    show 0 + xs.length ≤ h
    omega
  obtain ⟨e1, e2⟩ := SimpleVector.pushAll_within _ xs hw hfit
  refine ⟨rfl, rfl, e1, ?_, ?_⟩
  · rw [e2]
    show List.take 0 _ ++ xs = xs
    simp
  · rw [SimpleVector.pushAll_size]
    show 0 + xs.length = xs.length
    omega

theorem ReserveProxyObj_contract_witness :
    [7, 8, 9].length ≤ 3 ∧
    (SimpleVector.ofReserve (Reserve 3) : SimpleVector Nat).size_ = 0 ∧
    (SimpleVector.ofReserve (Reserve 3) : SimpleVector Nat).capacity_ = 3 ∧
    (SimpleVector.pushAll (SimpleVector.ofReserve (Reserve 3)) [7, 8, 9]).capacity_ = 3 ∧
    (SimpleVector.pushAll (SimpleVector.ofReserve (Reserve 3)) [7, 8, 9]).toList = [7, 8, 9] ∧
    (SimpleVector.pushAll (SimpleVector.ofReserve (Reserve 3)) [7, 8, 9]).size_ = 3 :=
  ⟨by decide, ReserveProxyObj_contract 3 [7, 8, 9] (by decide)⟩

/-! ## The invariant `size ≤ capacity`, and equality through the ordering -/

namespace SimpleVector

open SimpleVec

variable {T : Type}

theorem PushBack_size_le [Inhabited T] (v : SimpleVector T) (x : T)
    (h : v.size_ ≤ v.capacity_) : (v.PushBack x).size_ ≤ (v.PushBack x).capacity_ := by
  rw [PushBack_size]
  by_cases h0 : v.capacity_ = 0
  · have hc : (v.PushBack x).capacity_ = 10 := by
      have hs : v.size_ = 0 := by omega
      unfold PushBack
      simp [IsEmpty, hs, h0, Reserve]
    omega
  · by_cases hlt : v.size_ < v.capacity_
    · rw [PushBack_capacity_lt v x hlt]
      omega
    · rw [PushBack_capacity_full v x h0 (by omega)]
      omega

theorem Reserve_size_le [Inhabited T] (v : SimpleVector T) (c : Nat)
    (h : v.size_ ≤ v.capacity_) : (v.Reserve c).size_ ≤ (v.Reserve c).capacity_ := by
  rw [Reserve_size]
  by_cases hc : v.capacity_ < c
  · rw [Reserve_capacity_gt v c hc]
    omega
  · rw [Reserve_le v c (by omega)]
    exact h

theorem Resize_size_le [Inhabited T] (v : SimpleVector T) (n : Nat)
    (h : v.size_ ≤ v.capacity_) : (v.Resize n).size_ ≤ (v.Resize n).capacity_ := by
  rw [Resize_size]
  unfold Resize
  split
  · show n ≤ v.capacity_
    omega
  · split
    · show n ≤ v.capacity_
      omega
    · show n ≤ (v.Reserve n).capacity_
      rw [Reserve_capacity_gt v n (by omega)]

theorem Insert_size_le [Inhabited T] (v : SimpleVector T) (i : Nat) (x : ConstRef T)
    (h : v.size_ ≤ v.capacity_) (hi : i ≤ v.size_) :
    ∃ r : SimpleVector T × Nat, v.Insert i x = some r ∧ r.1.size_ ≤ r.1.capacity_ := by
  by_cases he : i = v.size_
  · subst he
    exact ⟨_, Insert_end v x, PushBack_size_le v _ h⟩
  · have hp : i < v.size_ := by omega
    by_cases hc : v.size_ < v.capacity_
    · refine ⟨_, Insert_shift v i x hp hc, ?_⟩
      show v.size_ + 1 ≤ v.capacity_
      omega
    · refine ⟨_, Insert_realloc v i x hp hc, ?_⟩
      show v.size_ + 1 ≤ 2 * v.capacity_
      omega

theorem PopBack_nonempty (v : SimpleVector T) (h : v.size_ ≠ 0) :
    v.PopBack = some { v with size_ := v.size_ - 1 } := by
  unfold PopBack
  simp [IsEmpty, h]

theorem copyAssign_self [Inhabited T] (mem : Nat → SimpleVector T) (a : Nat) :
    copyAssign mem a a = some mem := by
  unfold copyAssign
  rw [if_pos rfl]

theorem copyAssign_distinct [Inhabited T] (mem : Nat → SimpleVector T) (a b : Nat)
    (h : a ≠ b) :
    copyAssign mem a b =
      some (fun p =>
        if p = a then
          { items_ := stdCopy (mem b).items_ 0 (mem b).size_ (ArrayPtr (mem b).capacity_) 0,
            size_ := (mem b).size_, capacity_ := (mem b).capacity_ }
        else if p = b then mem b else mem p) := by
  unfold copyAssign
  rw [if_neg h, copyConstruct_eq]
  rfl

/-- C19: `size ≤ capacity` is an invariant of `SimpleVector`: every constructor
establishes it (copy and move construction from a source that satisfies it),
and every mutating operation called within its precondition preserves it, for
both objects where two are involved and for every object in memory after an
assignment. -/
theorem size_le_capacity_invariant [Inhabited T] (v w : SimpleVector T)
    (mem : Nat → SimpleVector T) (a b n i : Nat) (x : T) (value : ConstRef T)
    (init : List T) (hint : ReserveProxyObj)
    (hv : v.size_ ≤ v.capacity_) (hw : w.size_ ≤ w.capacity_)
    (hmem : ∀ p, (mem p).size_ ≤ (mem p).capacity_) :
    ((empty : SimpleVector T).size_ ≤ (empty : SimpleVector T).capacity_ ∧
      (sized n : SimpleVector T).size_ ≤ (sized n : SimpleVector T).capacity_ ∧
      (sizedValue n x).size_ ≤ (sizedValue n x).capacity_ ∧
      (ofInit init).size_ ≤ (ofInit init).capacity_ ∧
      (ofReserve hint : SimpleVector T).size_ ≤ (ofReserve hint : SimpleVector T).capacity_ ∧
      (∃ r : SimpleVector T × SimpleVector T, copyConstruct v = some r ∧
        r.1.size_ ≤ r.1.capacity_ ∧ r.2.size_ ≤ r.2.capacity_) ∧
      (moveConstruct v).1.size_ ≤ (moveConstruct v).1.capacity_ ∧
      (moveConstruct v).2.size_ ≤ (moveConstruct v).2.capacity_) ∧
    ((v.PushBack x).size_ ≤ (v.PushBack x).capacity_ ∧
      (v.size_ ≠ 0 → ∃ r : SimpleVector T, v.PopBack = some r ∧ r.size_ ≤ r.capacity_) ∧
      (i ≤ v.size_ →
        ∃ r : SimpleVector T × Nat, v.Insert i value = some r ∧
          r.1.size_ ≤ r.1.capacity_) ∧
      (i < v.size_ →
        ∃ r : SimpleVector T × Nat, v.Erase i = some r ∧ r.1.size_ ≤ r.1.capacity_) ∧
      (v.Resize n).size_ ≤ (v.Resize n).capacity_ ∧
      (v.Reserve n).size_ ≤ (v.Reserve n).capacity_ ∧
      (v.Clear).size_ ≤ (v.Clear).capacity_ ∧
      (swap v w).1.size_ ≤ (swap v w).1.capacity_ ∧
      (swap v w).2.size_ ≤ (swap v w).2.capacity_ ∧
      (∃ m : Nat → SimpleVector T, copyAssign mem a b = some m ∧
        ∀ p, (m p).size_ ≤ (m p).capacity_) ∧
      (∀ p, (moveAssign mem a b p).size_ ≤ (moveAssign mem a b p).capacity_)) := by
  refine ⟨⟨Nat.le_refl _, Nat.le_refl _, Nat.le_refl _, Nat.le_refl _, Nat.zero_le _,
    ⟨_, copyConstruct_eq v, hv, hv⟩, hv, Nat.le_refl _⟩,
    PushBack_size_le v x hv, ?_, Insert_size_le v i value hv, ?_, Resize_size_le v n hv,
    Reserve_size_le v n hv, Nat.zero_le _, hw, hv, ?_, ?_⟩
  · intro h0
    refine ⟨_, PopBack_nonempty v h0, ?_⟩
    show v.size_ - 1 ≤ v.capacity_
    omega
  · intro hi
    refine ⟨_, Erase_lt v i hi, ?_⟩
    show v.size_ - 1 ≤ v.capacity_
    omega
  · by_cases hab : a = b
    · subst hab
      exact ⟨mem, copyAssign_self mem a, hmem⟩
    · refine ⟨_, copyAssign_distinct mem a b hab, fun p => ?_⟩
      show (if p = a then _ else if p = b then mem b else mem p : SimpleVector T).size_ ≤
        (if p = a then _ else if p = b then mem b else mem p : SimpleVector T).capacity_
      by_cases hpa : p = a
      · rw [if_pos hpa]
        exact hmem b
      · rw [if_neg hpa]
        by_cases hpb : p = b
        · rw [if_pos hpb]; exact hmem b
        · rw [if_neg hpb]; exact hmem p
  · intro p
    by_cases hab : a = b
    · subst hab
      rw [moveAssign_self]
      exact hmem p
    · by_cases hpa : p = a
      · subst hpa
        rw [moveAssign_receiver mem p b hab]
        exact hmem b
      · by_cases hpb : p = b
        · subst hpb
          rw [moveAssign_source mem a p hab]
          exact Nat.le_refl _
        · rw [moveAssign_other mem a b p hab hpa hpb]
          exact hmem p

theorem size_le_capacity_invariant_witness :
    (ofInit [1, 2, 3] : SimpleVector Nat).size_ ≤ (ofInit [1, 2, 3] : SimpleVector Nat).capacity_ ∧
    (ofInit [4] : SimpleVector Nat).size_ ≤ (ofInit [4] : SimpleVector Nat).capacity_ ∧
    (∀ p : Nat, (if p = 0 then (ofInit [1, 2] : SimpleVector Nat) else ofInit [3]).size_ ≤
      (if p = 0 then (ofInit [1, 2] : SimpleVector Nat) else ofInit [3]).capacity_) ∧
    ((ofInit [1, 2, 3] : SimpleVector Nat).PushBack 9).size_ ≤
      ((ofInit [1, 2, 3] : SimpleVector Nat).PushBack 9).capacity_ ∧
    (∃ m : Nat → SimpleVector Nat,
      copyAssign (fun p => if p = 0 then (ofInit [1, 2] : SimpleVector Nat) else ofInit [3]) 0 1
        = some m ∧ ∀ p, (m p).size_ ≤ (m p).capacity_) :=
  ⟨by decide, by decide, fun p => by split <;> decide,
    (size_le_capacity_invariant (ofInit [1, 2, 3]) (ofInit [4])
      (fun p => if p = 0 then (ofInit [1, 2] : SimpleVector Nat) else ofInit [3]) 0 1 2 1 9
      (ConstRef.slot 2) [5, 6] (ReserveProxyObj.mk 4) (by decide) (by decide)
      (fun p => by dsimp only; split <;> decide)).2.1,
    (size_le_capacity_invariant (ofInit [1, 2, 3]) (ofInit [4])
      (fun p => if p = 0 then (ofInit [1, 2] : SimpleVector Nat) else ofInit [3]) 0 1 2 1 9
      (ConstRef.slot 2) [5, 6] (ReserveProxyObj.mk 4) (by decide) (by decide)
      (fun p => by dsimp only; split <;> decide)).2.2.2.2.2.2.2.2.2.2.1⟩

/-- C20: over an element type whose `<` is a strict total order, for any two
valid vectors `operator==`, defined as `(a >= b) && (a <= b)`, is true exactly
when they have the same size and equal elements at every index, whatever their
capacities and the slots beyond the size hold; so `a == a` always holds, and
exactly one of `a < b`, `a == b`, `a > b` holds. -/
theorem opEq_contract (less : T → T → Bool) (hl : StrictTotal less) (a b : SimpleVector T)
    (ha : a.WF) (hb : b.WF) :
    (opEq less a b = ((opGe less a b) && (opLe less a b))) ∧
    (opEq less a b = true ↔
      a.size_ = b.size_ ∧ ∀ i, i < a.size_ → a.items_[i]? = b.items_[i]?) ∧
    opEq less a a = true ∧
    (opLt less a b = true ∨ opEq less a b = true ∨ opGt less a b = true) ∧
    ¬ (opLt less a b = true ∧ opEq less a b = true) ∧
    ¬ (opLt less a b = true ∧ opGt less a b = true) ∧
    ¬ (opEq less a b = true ∧ opGt less a b = true) := by
  have hasymm : opLt less a b = true → opLt less b a = false := fun h =>
    lexicographical_compare_asymm less (fun x y => hl.asymm x y) _ _ h
  have hdef : opEq less a b = (!(opLt less a b) && !(opLt less b a)) := rfl
  have hgt : opGt less a b = opLt less b a := rfl
  refine ⟨rfl, ?_, (opEq_iff_toList less hl a a).2 rfl, ?_, ?_, ?_, ?_⟩
  · rw [opEq_iff_toList less hl a b, toList_eq_iff a b ha hb]
  · rw [hdef, hgt]
    cases h1 : opLt less a b <;> cases h2 : opLt less b a <;> simp
  · rw [hdef]
    rintro ⟨h1, h2⟩
    rw [h1] at h2
    simp at h2
  · rw [hgt]
    rintro ⟨h1, h2⟩
    rw [hasymm h1] at h2
    cases h2
  · rw [hdef, hgt]
    rintro ⟨h1, h2⟩
    rw [h2] at h1
    simp at h1

theorem opEq_contract_witness :
    StrictTotal (fun x y : Nat => decide (x < y)) ∧
    (ofInit [1, 2, 3] : SimpleVector Nat).WF ∧ (ofInit [1, 2, 4] : SimpleVector Nat).WF ∧
    (opLt (fun x y : Nat => decide (x < y)) (ofInit [1, 2, 3]) (ofInit [1, 2, 4]) = true ∧
      opEq (fun x y : Nat => decide (x < y)) (ofInit [1, 2, 3]) (ofInit [1, 2, 3]) = true ∧
      opGt (fun x y : Nat => decide (x < y)) (ofInit [1, 2, 4]) (ofInit [1, 2, 3]) = true) ∧
    ¬ (opLt (fun x y : Nat => decide (x < y)) (ofInit [1, 2, 3]) (ofInit [1, 2, 4]) = true ∧
      opEq (fun x y : Nat => decide (x < y)) (ofInit [1, 2, 3]) (ofInit [1, 2, 4]) = true) :=
  ⟨⟨fun a => by simp, fun a b c => by simp; omega, fun a b => by simp; omega⟩,
    by decide, by decide, by decide,
    (opEq_contract (fun x y : Nat => decide (x < y))
      ⟨fun a => by simp, fun a b c => by simp; omega, fun a b => by simp; omega⟩
      (ofInit [1, 2, 3]) (ofInit [1, 2, 4]) (by decide) (by decide)).2.2.2.2.1⟩

end SimpleVector
